import Mathlib

/-! # notion-md-gen: the generator (`generator/generator.go`)

A shallow embedding of `generateArticleFilename`, `generate` and `Run`, with the
parts of the Go standard library they call (`unicode/utf8`, `unicode`, `strings`,
`regexp`, `path/filepath`, `net/url`, `time`).

A Go `string` is a sequence of bytes, not of characters: the library functions the
generator calls decode UTF-8 on the fly, and ill-formed input is part of their
contract. The embedding keeps that level: strings are lists of byte values.
-/

namespace NotionMdGen

/-! ## Go strings, runes and UTF-8 (`unicode/utf8`) -/

/-- A Go `string`: a sequence of byte values (`0 .. 255`). A `rune` (a code
point) is a natural number as well. A list element above 255 is no byte of any Go
string; the decoder below takes it for an ill-formed byte. -/
abbrev GoString := List Nat

/-- The rune `utf8.RuneError` (U+FFFD), what decoding yields on ill-formed input. -/
def utf8.RuneError : Nat := 0xFFFD

/-- Bytes below `utf8.RuneSelf` are single-byte runes. -/
def utf8.RuneSelf : Nat := 0x80

/-- The largest code point, `utf8.MaxRune`. -/
def utf8.MaxRune : Nat := 0x10FFFF

/-- A continuation byte: `locb <= b && b <= hicb`. -/
def utf8.isCont (b : Nat) : Bool := 0x80 ≤ b && b ≤ 0xBF

/-- Lower end of the accepted range of the second byte (`acceptRanges[..].lo`),
by lead byte. -/
def utf8.acceptLo (s0 : Nat) : Nat :=
  if s0 = 0xE0 then 0xA0 else if s0 = 0xF0 then 0x90 else 0x80

/-- Upper end of the accepted range of the second byte (`acceptRanges[..].hi`),
by lead byte. -/
def utf8.acceptHi (s0 : Nat) : Nat :=
  if s0 = 0xED then 0x9F else if s0 = 0xF4 then 0x8F else 0xBF

/-- The function `utf8.DecodeRuneInString`: the first rune of `s` and its width
in bytes; `(RuneError, 0)` on the empty string and `(RuneError, 1)` when the
string does not start with a well-formed encoding (overlong forms, surrogates
and values above `MaxRune` are ill-formed). The masks and shifts of the source,
`rune(s0&mask2)<<6 | rune(s1&maskx)` and the like, are written with `%`, `*` and
`+`: the fields do not overlap. -/
def utf8.DecodeRuneInString : GoString → Nat × Nat
  | [] => (utf8.RuneError, 0)
  | s0 :: rest =>
    if s0 < 0x80 then (s0, 1)
    else if s0 < 0xC2 then (utf8.RuneError, 1)
    else if s0 < 0xE0 then
      match rest with
      | s1 :: _ =>
        if utf8.isCont s1 then (s0 % 0x20 * 0x40 + s1 % 0x40, 2)
        else (utf8.RuneError, 1)
      | _ => (utf8.RuneError, 1)
    else if s0 < 0xF0 then
      match rest with
      | s1 :: s2 :: _ =>
        if utf8.acceptLo s0 ≤ s1 ∧ s1 ≤ utf8.acceptHi s0 ∧ utf8.isCont s2 then
          (s0 % 0x10 * 0x1000 + s1 % 0x40 * 0x40 + s2 % 0x40, 3)
        else (utf8.RuneError, 1)
      | _ => (utf8.RuneError, 1)
    else if s0 < 0xF5 then
      match rest with
      | s1 :: s2 :: s3 :: _ =>
        if utf8.acceptLo s0 ≤ s1 ∧ s1 ≤ utf8.acceptHi s0 ∧ utf8.isCont s2
            ∧ utf8.isCont s3 then
          (s0 % 0x08 * 0x40000 + s1 % 0x40 * 0x1000 + s2 % 0x40 * 0x40 + s3 % 0x40, 4)
        else (utf8.RuneError, 1)
      | _ => (utf8.RuneError, 1)
    else (utf8.RuneError, 1)

/-- The function `utf8.AppendRune` (what `strings.Builder.WriteRune` writes): the
UTF-8 encoding of `r`, that of `RuneError` when `r` is a surrogate or above
`MaxRune`. -/
def utf8.AppendRune (r : Nat) : GoString :=
  if r ≤ 0x7F then [r]
  else if r ≤ 0x7FF then [0xC0 + r / 0x40, 0x80 + r % 0x40]
  else if utf8.MaxRune < r ∨ (0xD800 ≤ r ∧ r ≤ 0xDFFF) then [0xEF, 0xBF, 0xBD]
  else if r ≤ 0xFFFF then
    [0xE0 + r / 0x1000, 0x80 + r / 0x40 % 0x40, 0x80 + r % 0x40]
  else
    [0xF0 + r / 0x40000, 0x80 + r / 0x1000 % 0x40, 0x80 + r / 0x40 % 0x40,
      0x80 + r % 0x40]

/-- What decoding yields for the encoding of `r`: `r` itself, or `RuneError`
when `r` is not a valid code point. -/
def utf8.validRune (r : Nat) : Nat :=
  if utf8.MaxRune < r ∨ (0xD800 ≤ r ∧ r ≤ 0xDFFF) then utf8.RuneError else r

/-- The bytes of a string literal of the source (Go source text is UTF-8). -/
def str (s : String) : GoString := s.toList.flatMap (fun c => utf8.AppendRune c.toNat)

/-- Worker of `rangeString`: `skip` bytes of the rune decoded last are still ahead. -/
def rangeFrom : Nat → GoString → List (Nat × GoString)
  | _, [] => []
  | skip + 1, _ :: rest => rangeFrom skip rest
  | 0, s0 :: rest =>
    ((utf8.DecodeRuneInString (s0 :: rest)).1,
        (s0 :: rest).take (utf8.DecodeRuneInString (s0 :: rest)).2) ::
      rangeFrom ((utf8.DecodeRuneInString (s0 :: rest)).2 - 1) rest

/-- What `for _, c := range s` walks through, and how the `regexp` package steps
through its input: the runes of `s` from left to right, each with the bytes it
was decoded from. An ill-formed byte is a one-byte `RuneError`. -/
def rangeString (s : GoString) : List (Nat × GoString) := rangeFrom 0 s

/-- An element of `rangeString` that stands for an ill-formed byte: the rune is
`RuneError` and the width is 1 (a well-formed U+FFFD has width 3). -/
def isInvalidByte (u : Nat × GoString) : Bool :=
  u.1 == utf8.RuneError && u.2.length == 1

/-! ## `unicode` and `strings` -/

/-- The largest ASCII value, `unicode.MaxASCII`. -/
def unicode.MaxASCII : Nat := 0x7F

/-- An upper-case ASCII letter: `'A' <= c && c <= 'Z'`. -/
def isUpperASCII (c : Nat) : Bool := 0x41 ≤ c && c ≤ 0x5A

/-- The function `unicode.ToLower`. ASCII is handled inline; above ASCII Go
looks the rune up in the table `unicode.CaseRanges` (`To(LowerCase, r)`). The
table belongs to the Go distribution and varies with its Unicode version, so the
lookup is the parameter `toLowerCase`. -/
def unicode.ToLower (toLowerCase : Nat → Nat) (r : Nat) : Nat :=
  if r ≤ unicode.MaxASCII then
    if isUpperASCII r then r + 0x20 else r
  else toLowerCase r

/-- Two entries of `unicode.CaseRanges` that every Go release has, and identity
elsewhere: U+0130 (capital I with dot above, delta -199) and U+212A (Kelvin
sign, delta -8383) are the runes above ASCII whose lower case is an ASCII
letter. Used where a concrete table is needed. -/
def caseRangesExcerpt (r : Nat) : Nat :=
  if r = 0x0130 then 0x69 else if r = 0x212A then 0x6B else r

/-- The loops of `strings.Map` for a `mapping` that drops no rune: the leading
part of `s` on which nothing changes is kept as it is (a rune that maps to itself
and is not an ill-formed byte); from the first change on every rune is written
anew with `WriteRune`. An ill-formed byte is presented to `mapping` as
`RuneError`. -/
def mapLoop (mapping : Nat → Nat) : List (Nat × GoString) → GoString
  | [] => []
  | u :: us =>
    if mapping u.1 = u.1 ∧ isInvalidByte u = false then u.2 ++ mapLoop mapping us
    else utf8.AppendRune (mapping u.1) ++ us.flatMap (fun v => utf8.AppendRune (mapping v.1))

/-- The function `strings.Map`. -/
def strings.Map (mapping : Nat → Nat) (s : GoString) : GoString :=
  mapLoop mapping (rangeString s)

/-- The function `strings.ToLower`: bytewise on an all-ASCII string, else
`Map(unicode.ToLower, s)`. -/
def strings.ToLower (toLowerCase : Nat → Nat) (s : GoString) : GoString :=
  if s.all (fun c => c < utf8.RuneSelf) then
    if s.any isUpperASCII then s.map (fun c => if isUpperASCII c then c + 0x20 else c)
    else s
  else strings.Map (unicode.ToLower toLowerCase) s

/-- The copying loop of `strings.ToValidUTF8`: `invalid` tells that the previous
byte was ill-formed, so that a run of ill-formed bytes gets one replacement. -/
def toValidLoop (replacement : GoString) : Bool → List (Nat × GoString) → GoString
  | _, [] => []
  | invalid, u :: us =>
    if isInvalidByte u then
      (if invalid then [] else replacement) ++ toValidLoop replacement true us
    else u.2 ++ toValidLoop replacement false us

/-- The function `strings.ToValidUTF8`: `s` with each run of ill-formed bytes
replaced by `replacement`. -/
def strings.ToValidUTF8 (s replacement : GoString) : GoString :=
  toValidLoop replacement false (rangeString s)

/-! ## `regexp` -/

/-- A pattern of package `regexp`, as far as the generator writes patterns:
a literal rune, a negated class `[^...]` given by its ranges, `^` and `$`
(without the multi-line flag: beginning and end of the text), concatenation,
alternation `|` and the greedy repetition `+`. -/
inductive Regexp where
  | literal (c : Nat)
  | notClass (ranges : List (Nat × Nat))
  | beginText
  | endText
  | concat (a b : Regexp)
  | alternate (a b : Regexp)
  | plus (a : Regexp)

/-- The repetition `a+` for an operand that matches as `step` does: one more
round is tried before the rest of the pattern is (greedy), as long as the last
round consumed something. `fuel` bounds the number of rounds. -/
def Regexp.plusLoop (step : Bool → List (Nat × GoString) →
      (Bool → List (Nat × GoString) → Option (List (Nat × GoString))) →
      Option (List (Nat × GoString))) :
    Nat → Bool → List (Nat × GoString) →
      (Bool → List (Nat × GoString) → Option (List (Nat × GoString))) →
      Option (List (Nat × GoString))
  | 0, _, _, _ => none
  | fuel + 1, atStart, us, k =>
    step atStart us (fun atStart2 rest =>
      if rest.length < us.length then
        (Regexp.plusLoop step fuel atStart2 rest k).orElse (fun _ => k atStart2 rest)
      else k atStart2 rest)

/-- Matching at one place of the text, as a backtracking search does it: the
semantics package `regexp` documents (among the matches that begin at a place,
"the one that a backtracking search would have found first"). `us` is the text
from that place on, `atStart` tells that the place is the beginning of the
text, `k` stands for the rest of the pattern; the result is the text after the
match. -/
def Regexp.run : Regexp → Bool → List (Nat × GoString) →
    (Bool → List (Nat × GoString) → Option (List (Nat × GoString))) →
    Option (List (Nat × GoString))
  | Regexp.literal c, _, us, k =>
    match us with
    | u :: rest => if u.1 = c then k false rest else none
    | [] => none
  | Regexp.notClass ranges, _, us, k =>
    match us with
    | u :: rest =>
      if ranges.all (fun r => !(r.1 ≤ u.1 && u.1 ≤ r.2)) then k false rest else none
    | [] => none
  | Regexp.beginText, atStart, us, k => if atStart then k atStart us else none
  | Regexp.endText, atStart, us, k => if us.isEmpty then k atStart us else none
  | Regexp.concat a b, atStart, us, k =>
    a.run atStart us (fun atStart2 rest => b.run atStart2 rest k)
  | Regexp.alternate a b, atStart, us, k =>
    (a.run atStart us k).orElse (fun _ => b.run atStart us k)
  | Regexp.plus a, atStart, us, k => Regexp.plusLoop a.run (us.length + 1) atStart us k

/-- The leftmost match in `us`: the text in front of it and the text after it. -/
def Regexp.find (re : Regexp) : Bool → List (Nat × GoString) →
    Option (List (Nat × GoString) × List (Nat × GoString))
  | atStart, [] => (re.run atStart [] (fun _ rest => some rest)).map (fun rest => ([], rest))
  | atStart, u :: us =>
    match re.run atStart (u :: us) (fun _ rest => some rest) with
    | some rest => some ([], rest)
    | none => (re.find false us).map (fun r => (u :: r.1, r.2))

/-- The loop of `(*Regexp).replaceAll`: `us` is the text from the search
position on, `pending` the text between the end of the last match and the
search position. Every match is replaced; a match of the empty string right
after another match is not, and the search then moves on by one rune. -/
def Regexp.replaceLoop (re : Regexp) (repl : GoString) :
    Nat → Bool → List (Nat × GoString) → List (Nat × GoString) → GoString
  | 0, _, pending, us => (pending ++ us).flatMap Prod.snd
  | fuel + 1, atStart, pending, us =>
    match re.find atStart us with
    | none => (pending ++ us).flatMap Prod.snd
    | some (skipped, rest) =>
      if skipped.isEmpty && rest.length == us.length then
        pending.flatMap Prod.snd ++ (if pending.isEmpty && !atStart then [] else repl) ++
          match us with
          | [] => []
          | u :: us1 => re.replaceLoop repl fuel false [u] us1
      else
        (pending ++ skipped).flatMap Prod.snd ++ repl ++ re.replaceLoop repl fuel false [] rest

/-- The method `(*Regexp).ReplaceAllLiteralString`: `src` with every match of
the pattern replaced by `repl`. -/
def Regexp.ReplaceAllLiteralString (re : Regexp) (src repl : GoString) : GoString :=
  re.replaceLoop repl ((rangeString src).length + 1) true [] (rangeString src)

/-- The pattern `regexp.MustCompile("[^A-Za-z0-9_.-]+")`. -/
def disallowedSlugChars : Regexp :=
  Regexp.plus (Regexp.notClass
    [(0x41, 0x5A), (0x61, 0x7A), (0x30, 0x39), (0x5F, 0x5F), (0x2E, 0x2E), (0x2D, 0x2D)])

/-- The pattern `regexp.MustCompile(fmt.Sprintf("^%s+|%s+-$", "-", "-"))`, that
is `^-+|-+-$`. -/
def slugReplacementTrimmer : Regexp :=
  Regexp.alternate
    (Regexp.concat Regexp.beginText (Regexp.plus (Regexp.literal 0x2D)))
    (Regexp.concat (Regexp.plus (Regexp.literal 0x2D))
      (Regexp.concat (Regexp.literal 0x2D) Regexp.endText))

/-- The pattern `regexp.MustCompile(fmt.Sprintf("%s+", "-"))`, that is `-+`. -/
def slugReplacementDeduper : Regexp := Regexp.plus (Regexp.literal 0x2D)

/-! ## What the three patterns compute -/

/-- The class `[^A-Za-z0-9_.-]` of `disallowedSlugChars`. -/
def disallowedSlugChar (c : Nat) : Bool :=
  !((0x41 ≤ c && c ≤ 0x5A) || (0x61 ≤ c && c ≤ 0x7A) || (0x30 ≤ c && c ≤ 0x39)
    || c == 0x5F || c == 0x2E || c == 0x2D)

/-- A character of a slug: one of `a-z`, `0-9`, `_`, `.`, `-`. -/
def slugChar (c : Nat) : Bool :=
  (0x61 ≤ c && c ≤ 0x7A) || (0x30 ≤ c && c ≤ 0x39) || c == 0x5F || c == 0x2E || c == 0x2D

/-- No two hyphens stand side by side in `s`. -/
def noHyphenPair (s : GoString) : Prop := s.Chain' (fun a b => ¬ (a = 0x2D ∧ b = 0x2D))

/-- The literal `-` of `slugReplacementChar`. -/
def isHyphen (c : Nat) : Bool := c == 0x2D

/-- Replacing all matches of a pattern `[class]+`: the maximal runs of runes of
the class are replaced by `repl`; `inMatch` tells that the previous rune belongs
to the match under way. -/
def replaceRuns (cls : Nat → Bool) (repl : GoString) :
    Bool → List (Nat × GoString) → GoString
  | _, [] => []
  | inMatch, u :: us =>
    if cls u.1 then (if inMatch then [] else repl) ++ replaceRuns cls repl true us
    else u.2 ++ replaceRuns cls repl false us

/-- Replacing the match of `-+-$` in a text: the leftmost place from which only
hyphens follow, at least two of them, up to the end of the text. -/
def trimTrailing (repl : GoString) : List (Nat × GoString) → GoString
  | [] => []
  | u :: us =>
    if (u :: us).all (fun v => isHyphen v.1) ∧ 2 ≤ (u :: us).length then repl
    else u.2 ++ trimTrailing repl us

/-- Replacing all matches of `^-+|-+-$`: the leading hyphens, all of them, then
the match of `-+-$` in the rest. -/
def trimBothEnds (repl : GoString) (us : List (Nat × GoString)) : GoString :=
  match us.head? with
  | some u =>
    if isHyphen u.1 then repl ++ trimTrailing repl (us.dropWhile (fun v => isHyphen v.1))
    else trimTrailing repl us
  | none => []

/-! ## `time`, `path/filepath`, `net/url` -/

/-- A `time.Time` as `Format("2006-01-02")` reads it: the calendar date that
`t.Date()` returns (the year may be negative or have more than four digits). -/
structure Time where
  year : Int
  month : Nat
  day : Nat
deriving DecidableEq, Repr

/-- Decimal digits of `n`, most significant first, in front of `acc`
(`fuel` bounds the number of digits). -/
def decimalLoop : Nat → Nat → GoString → GoString
  | 0, _, acc => acc
  | fuel + 1, n, acc =>
    if n / 10 = 0 then (0x30 + n % 10) :: acc
    else decimalLoop fuel (n / 10) ((0x30 + n % 10) :: acc)

/-- The function `appendInt` of package `time`: the decimal form of `x`,
zero-padded to `width` digits, after a `-` when `x` is negative. -/
def time.appendInt (x : Int) (width : Nat) : GoString :=
  let digits := decimalLoop (x.natAbs + 1) x.natAbs []
  (if x < 0 then [0x2D] else []) ++ List.replicate (width - digits.length) 0x30 ++ digits

/-- The method `Time.Format` for the layout `"2006-01-02"`. -/
def Time.Format20060102 (t : Time) : GoString :=
  time.appendInt t.year 4 ++ [0x2D] ++ time.appendInt (Int.ofNat t.month) 2 ++ [0x2D]
    ++ time.appendInt (Int.ofNat t.day) 2

/-- The path separator `filepath.Separator` (Unix). -/
def filepath.Separator : Nat := 0x2F

/-- One path element in `filepath.Clean`: `out` holds the elements kept so far.
Empty elements and `.` are dropped; `..` removes the element before it, is
dropped at the root, and is kept in front of a relative path. -/
def cleanStep (rooted : Bool) (out : List GoString) (e : GoString) : List GoString :=
  if e = [] ∨ e = str "." then out
  else if e = str ".." then
    match out.getLast? with
    | some x => if x = str ".." then out ++ [e] else out.dropLast
    | none => if rooted then out else out ++ [e]
  else out ++ [e]

/-- The path elements `filepath.Clean` keeps of `path`, in order. -/
def filepath.cleanElems (path : GoString) : List GoString :=
  (path.splitOn filepath.Separator).foldl
    (cleanStep (path.head? = some filepath.Separator)) []

/-- The function `filepath.Clean` (Unix): the shortest path equivalent to `path`
by purely lexical processing; `.` when nothing is left. -/
def filepath.Clean (path : GoString) : GoString :=
  let cleaned := (if path.head? = some filepath.Separator then [filepath.Separator] else [])
    ++ [filepath.Separator].intercalate (filepath.cleanElems path)
  if cleaned = [] then str "." else cleaned

/-- The function `filepath.Join`: the elements from the first non-empty one on,
joined by the separator, then cleaned; the empty string when all are empty. -/
def filepath.Join (elem : List GoString) : GoString :=
  match elem.dropWhile (fun e => e = []) with
  | [] => []
  | e :: es => filepath.Clean ([filepath.Separator].intercalate (e :: es))

/-- `shouldEscape(c, encodePathSegment)` of package `net/url`. -/
def url.shouldEscape (c : Nat) : Bool :=
  if (0x61 ≤ c && c ≤ 0x7A) || (0x41 ≤ c && c ≤ 0x5A) || (0x30 ≤ c && c ≤ 0x39) then false
  else if c ∈ str "-_.~" then false
  else if c ∈ str "$&+,/:;=?@" then c ∈ str "/;,?"
  else true

/-- An upper-case hexadecimal digit, `upperhex[d]`. -/
def url.upperhex (d : Nat) : Nat := if d < 10 then 0x30 + d else 0x41 + (d - 10)

/-- The function `url.PathEscape`: every byte that must be escaped in a path
segment written as `%XX`. -/
def url.PathEscape (s : GoString) : GoString :=
  s.flatMap (fun c =>
    if url.shouldEscape c then [0x25, url.upperhex (c / 16), url.upperhex (c % 16)] else [c])

/-! ## The generator -/

/-- The configuration `Markdown` (declared in the package's configuration file):
the fields the generator reads. -/
structure Markdown where
  PostSavePath : GoString
  ImageSavePath : GoString
  ImagePublicLink : GoString
  PageNamePrefix : GoString
  GroupByMonth : Bool
  Template : GoString
  ShortcodeSyntax : GoString
deriving DecidableEq, Repr

/-- The function `generateArticleFilename`: "creates a filesystem-safe slug
from the title of the article". `escapedTitle` is the value of the variable of
that name before `.md` is appended. -/
def escapedTitle (toLowerCase : Nat → Nat) (title : GoString) : GoString :=
  let slugReplacementChar := str "-"
  let escapedTitle := strings.ToLower toLowerCase title
  let escapedTitle := strings.ToValidUTF8 escapedTitle (str "")
  let escapedTitle :=
    disallowedSlugChars.ReplaceAllLiteralString escapedTitle slugReplacementChar
  let escapedTitle :=
    slugReplacementDeduper.ReplaceAllLiteralString escapedTitle slugReplacementChar
  slugReplacementTrimmer.ReplaceAllLiteralString escapedTitle (str "")

/-- The function `generateArticleFilename`. -/
def generateArticleFilename (toLowerCase : Nat → Nat) (title : GoString) (date : Time)
    (config : Markdown) : GoString :=
  let escapedFilename := escapedTitle toLowerCase title ++ str ".md"
  if config.GroupByMonth then
    filepath.Join [date.Format20060102, escapedFilename]
  else escapedFilename

/-- An `error`: its message. -/
abbrev Error := GoString

/-- A `notion.Page` as the generator reads it. `Name` is the title as
`tomarkdown.ConvertRichText(page.Properties.(notion.DatabasePageProperties)["Name"].Title)`
renders it; the pages of a database query carry `notion.DatabasePageProperties`,
so the type assertion of the source holds. -/
structure Page where
  ID : GoString
  Name : GoString
  CreatedTime : Time
deriving DecidableEq, Repr

/-- The converter `tomarkdown.ToMarkdown` as `generate` configures it: the three
fields it assigns, the page given to `WithFrontMatter` and the name given to
`EnableExtendedSyntax`. -/
structure ToMarkdown where
  ImgSavePath : GoString
  ImgVisitPath : GoString
  ContentTemplate : GoString
  FrontMatter : Option Page
  ExtendedSyntax : Option GoString
deriving DecidableEq, Repr

/-- The function `tomarkdown.New`. -/
def tomarkdown.New : ToMarkdown := ⟨[], [], [], none, none⟩

/-- An operation on an open file. -/
inductive FileOp where
  | write (data : GoString)
  | close
deriving DecidableEq, Repr

/-- What a run does to the world around it, in the order it does it. `print` is
a line on standard output (`fmt.Println`, `fmt.Printf`), `log` a line handed to
the standard logger (`log.Println`, which puts its time stamp in front). -/
inductive Event where
  | mkdirAll (path : GoString)
  | queryDatabase
  | queryBlockChildren (pageID : GoString)
  | create (name : GoString)
  | file (name : GoString) (op : FileOp)
  | changeStatus (pageID : GoString)
  | print (text : GoString)
  | log (text : GoString)
deriving DecidableEq, Repr

/-- The collaborators of the generator: the operating system, the Notion client
and the functions of the package that live in other files. Each reads and changes
the state `σ` of the world; `β` stands for `[]notion.Block` and `ν` for the
configuration `Notion`. `GenerateTo` reports what it did to the file it was
given. -/
structure World (σ ν β : Type) where
  MkdirAll : GoString → σ → Option Error × σ
  Getenv : GoString → σ → GoString
  queryDatabase : GoString → ν → σ → Except Error (List Page) × σ
  queryBlockChildren : GoString → GoString → σ → Except Error β × σ
  Create : GoString → σ → Option Error × σ
  GenerateTo : ToMarkdown → β → GoString → σ → (List FileOp × Option Error) × σ
  changeStatus : GoString → Page → ν → σ → Bool × σ

/-- The configuration `Config`: the two parts `Run` reads. -/
structure Config (ν : Type) where
  Markdown : Markdown
  Notion : ν

/-- The local `pageName` of `generate`. -/
def generate.pageName (page : Page) (config : Markdown) : GoString :=
  config.PageNamePrefix ++ page.Name

/-- The converter `tm` that `generate` sets up before it calls `GenerateTo`. -/
def generate.tm (page : Page) (config : Markdown) : ToMarkdown :=
  let pageName := generate.pageName page config
  let tm := tomarkdown.New
  let tm := { tm with ImgSavePath := filepath.Join [config.ImageSavePath, pageName] }
  let tm := { tm with
    ImgVisitPath := filepath.Join [config.ImagePublicLink, url.PathEscape pageName] }
  let tm := { tm with ContentTemplate := config.Template }
  let tm := { tm with FrontMatter := some page }
  if config.ShortcodeSyntax ≠ [] then { tm with ExtendedSyntax := some config.ShortcodeSyntax }
  else tm

/-- The path `generate` hands to `os.Create`. -/
def generate.name (toLowerCase : Nat → Nat) (page : Page) (config : Markdown) : GoString :=
  let pageName := generate.pageName page config
  filepath.Join
    [config.PostSavePath, generateArticleFilename toLowerCase pageName page.CreatedTime config]

/-- The function `generate`: the error it returns (`none` for `nil`), what it
did, and the world it leaves. -/
def generate {σ ν β : Type} (w : World σ ν β) (toLowerCase : Nat → Nat) (page : Page)
    (blocks : β) (config : Markdown) (s : σ) : Option Error × List Event × σ :=
  let name := generate.name toLowerCase page config
  match w.Create name s with
  | (some err, s1) => (some (str "error create file: " ++ err), [Event.create name], s1)
  | (none, s1) =>
    match w.GenerateTo (generate.tm page config) blocks name s1 with
    | ((ops, err), s2) => (err, Event.create name :: ops.map (Event.file name), s2)

/-- The decimal form of a count, as `%d` prints it. -/
def decimal (n : Nat) : GoString := decimalLoop (n + 1) n []

/-- The line `fmt.Printf("-- Article [%d/%d] %s --\n", i+1, len(q.Results), pageName)`
prints. -/
def articleLine (i total : Nat) (pageName : GoString) : GoString :=
  str "-- Article [" ++ decimal i ++ str "/" ++ decimal total ++ str "] " ++ pageName
    ++ str " --\n"

/-- The loop of `Run` over `q.Results`, from the page of index `i` on: the
final value of `changed`, what was done, and the world it leaves. `total` is
`len(q.Results)`. -/
def Run.loop {σ ν β : Type} (w : World σ ν β) (toLowerCase : Nat → Nat)
    (config : Config ν) (client : GoString) (total : Nat) :
    List Page → Nat → Nat → σ → Nat × List Event × σ
  | [], _, changed, s => (changed, [], s)
  | page :: pages, i, changed, s =>
    let pageName := page.Name
    let head := [Event.print (articleLine (i + 1) total pageName),
      Event.queryBlockChildren page.ID]
    match w.queryBlockChildren client page.ID s with
    | (Except.error err, s1) =>
      let r := Run.loop w toLowerCase config client total pages (i + 1) changed s1
      (r.1, head ++ [Event.log (str "❌ Getting blocks tree: " ++ err ++ str "\n")]
        ++ r.2.1, r.2.2)
    | (Except.ok blocks, s1) =>
      let fetched := [Event.print (str "✔ Getting blocks tree: Completed\n")]
      match generate w toLowerCase page blocks config.Markdown s1 with
      | (some err, done, s2) =>
        let r := Run.loop w toLowerCase config client total pages (i + 1) changed s2
        (r.1, head ++ fetched ++ done
          ++ [Event.print (str "❌ Generating blog post: " ++ err ++ str "\n")] ++ r.2.1, r.2.2)
      | (none, done, s2) =>
        let generated := [Event.print (str "✔ Generating blog post: Completed\n"),
          Event.changeStatus page.ID]
        match w.changeStatus client page config.Notion s2 with
        | (status, s3) =>
          let r := Run.loop w toLowerCase config client total pages (i + 1)
            (if status then changed + 1 else changed) s3
          (r.1, head ++ fetched ++ done ++ generated ++ r.2.1, r.2.2)

/-- The function `Run`: the error it returns (`none` for `nil`), what it did,
and the world it leaves. -/
def Run {σ ν β : Type} (w : World σ ν β) (toLowerCase : Nat → Nat) (config : Config ν)
    (s : σ) : Option Error × List Event × σ :=
  match w.MkdirAll config.Markdown.PostSavePath s with
  | (some err, s1) =>
    (some (str "couldn\x27t create content folder: " ++ err),
      [Event.mkdirAll config.Markdown.PostSavePath], s1)
  | (none, s1) =>
    let client := w.Getenv (str "NOTION_SECRET") s1
    match w.queryDatabase client config.Notion s1 with
    | (Except.error err, s2) =>
      (some (str "❌ Querying Notion database: " ++ err),
        [Event.mkdirAll config.Markdown.PostSavePath, Event.queryDatabase], s2)
    | (Except.ok q, s2) =>
      let r := Run.loop w toLowerCase config client q.length q 0 0 s2
      let output :=
        if w.Getenv (str "GITHUB_ACTIONS") r.2.2 = str "true" then
          [Event.print (str "::set-output name=articles_published::" ++ decimal r.1
            ++ str "\n")]
        else []
      (none, [Event.mkdirAll config.Markdown.PostSavePath, Event.queryDatabase,
          Event.print (str "✔ Querying Notion database: Completed\n")] ++ r.2.1 ++ output,
        r.2.2)

/-! ## Vocabulary of the statements -/

/-- How the processing of one page ended: the block fetch failed; `generate`
failed after the file operations `ops` (none when the file could not be
created); or `generate` succeeded after `ops` and `changeStatus` answered
`status`. -/
inductive PageOutcome where
  | fetchFailed (err : Error)
  | generateFailed (ops : List FileOp) (err : Error)
  | generated (ops : List FileOp) (status : Bool)
deriving DecidableEq, Repr

/-- What `Run` does for the page of index `i` when its processing ends as
`outcome`: every step up to the failing one, the steps after it skipped. -/
def pageEvents (toLowerCase : Nat → Nat) (config : Markdown) (total i : Nat) (page : Page) :
    PageOutcome → List Event
  | PageOutcome.fetchFailed err =>
    [Event.print (articleLine (i + 1) total page.Name), Event.queryBlockChildren page.ID,
      Event.log (str "❌ Getting blocks tree: " ++ err ++ str "\n")]
  | PageOutcome.generateFailed ops err =>
    [Event.print (articleLine (i + 1) total page.Name), Event.queryBlockChildren page.ID,
      Event.print (str "✔ Getting blocks tree: Completed\n"),
      Event.create (generate.name toLowerCase page config)]
    ++ ops.map (Event.file (generate.name toLowerCase page config))
    ++ [Event.print (str "❌ Generating blog post: " ++ err ++ str "\n")]
  | PageOutcome.generated ops _ =>
    [Event.print (articleLine (i + 1) total page.Name), Event.queryBlockChildren page.ID,
      Event.print (str "✔ Getting blocks tree: Completed\n"),
      Event.create (generate.name toLowerCase page config)]
    ++ ops.map (Event.file (generate.name toLowerCase page config))
    ++ [Event.print (str "✔ Generating blog post: Completed\n"),
      Event.changeStatus page.ID]

/-- The pages from index `i` on, one after the other, each with its outcome. -/
def batchEvents (toLowerCase : Nat → Nat) (config : Markdown) (total : Nat) :
    Nat → List Page → List PageOutcome → List Event
  | i, page :: pages, outcome :: outcomes =>
    pageEvents toLowerCase config total i page outcome
      ++ batchEvents toLowerCase config total (i + 1) pages outcomes
  | _, _, _ => []

/-- The outcome of one page, read off the answers of the collaborators when the
page is taken up in the world `s`, and the world after the page. The fetch is
asked first; the file is created only when the fetch succeeded, the converter
runs only when the file was created, and the status is changed only when the
converter succeeded. Nothing else touches the world. -/
def pageOutcome {σ ν β : Type} (w : World σ ν β) (toLowerCase : Nat → Nat)
    (config : Config ν) (client : GoString) (page : Page) (s : σ) : PageOutcome × σ :=
  match w.queryBlockChildren client page.ID s with
  | (Except.error err, s1) => (PageOutcome.fetchFailed err, s1)
  | (Except.ok blocks, s1) =>
    match w.Create (generate.name toLowerCase page config.Markdown) s1 with
    | (some err, s2) => (PageOutcome.generateFailed [] (str "error create file: " ++ err), s2)
    | (none, s2) =>
      match w.GenerateTo (generate.tm page config.Markdown) blocks
          (generate.name toLowerCase page config.Markdown) s2 with
      | ((ops, some err), s3) => (PageOutcome.generateFailed ops err, s3)
      | ((ops, none), s3) =>
        (PageOutcome.generated ops (w.changeStatus client page config.Notion s3).1,
          (w.changeStatus client page config.Notion s3).2)

/-- The outcomes of the pages of a list taken up one after the other, each in
the world its predecessor left, whatever the outcome of the predecessor; and the
world after the last page. -/
def batchOutcomes {σ ν β : Type} (w : World σ ν β) (toLowerCase : Nat → Nat)
    (config : Config ν) (client : GoString) : List Page → σ → List PageOutcome × σ
  | [], s => ([], s)
  | page :: pages, s =>
    ((pageOutcome w toLowerCase config client page s).1
        :: (batchOutcomes w toLowerCase config client pages
            (pageOutcome w toLowerCase config client page s).2).1,
      (batchOutcomes w toLowerCase config client pages
        (pageOutcome w toLowerCase config client page s).2).2)

/-- The number of pages whose status was changed. -/
def published : List PageOutcome → Nat
  | [] => 0
  | PageOutcome.generated _ true :: outcomes => published outcomes + 1
  | _ :: outcomes => published outcomes

/-- The page IDs whose blocks a run asked for, in the order it asked. -/
def fetchedPages : List Event → List GoString
  | [] => []
  | Event.queryBlockChildren pageID :: events => pageID :: fetchedPages events
  | _ :: events => fetchedPages events

/-- A configuration for the examples. -/
def exampleConfig : Markdown :=
  { PostSavePath := str "content", ImageSavePath := str "static/images",
    ImagePublicLink := str "/images", PageNamePrefix := [], GroupByMonth := false,
    Template := str "title", ShortcodeSyntax := [] }

/-- A date for the examples. -/
def exampleDate : Time := ⟨2024, 3, 7⟩

/-- A world for the examples: a database of three pages; the blocks of page `2`
cannot be fetched; the file of the page named `Broken` cannot be created;
`GenerateTo` writes the template to the file it is given and fails when
`failing` is set; it never closes the file. -/
def exampleWorld (failing : Bool) : World Unit Unit Unit :=
  { MkdirAll := fun _ s => (none, s)
    Getenv := fun _ _ => []
    queryDatabase := fun _ _ s =>
      (Except.ok [⟨str "1", str "Hello, World!", exampleDate⟩,
        ⟨str "2", str "Second", exampleDate⟩, ⟨str "3", str "Broken", exampleDate⟩], s)
    queryBlockChildren := fun _ id s =>
      (if id = str "2" then Except.error (str "timeout") else Except.ok (), s)
    Create := fun name s =>
      (if name = str "content/broken.md" then some (str "permission denied") else none, s)
    GenerateTo := fun tm _ _ s =>
      (([FileOp.write tm.ContentTemplate], if failing then some (str "short write") else none), s)
    changeStatus := fun _ _ _ s => (true, s) }

/-! ## UTF-8 facts -/

theorem decode_cons_lt (s0 : Nat) (rest : GoString) (h : s0 < 0x80) :
    utf8.DecodeRuneInString (s0 :: rest) = (s0, 1) := by
  simp [utf8.DecodeRuneInString, h]

theorem decode_eq_lt (s0 : Nat) (rest : GoString) (r w : Nat)
    (h : utf8.DecodeRuneInString (s0 :: rest) = (r, w)) (hr : r < 0x80) : s0 < 0x80 := by
  by_contra hs
  unfold utf8.DecodeRuneInString at h
  simp only [hs, if_false] at h
  simp only [utf8.RuneError, utf8.isCont, utf8.acceptLo, utf8.acceptHi, Bool.and_eq_true,
    decide_eq_true_eq] at h
  split_ifs at h <;> (try split at h) <;> (try split_ifs at h) <;>
    simp only [Prod.mk.injEq] at h <;> omega

theorem decode_width_pos (s0 : Nat) (rest : GoString) :
    1 ≤ (utf8.DecodeRuneInString (s0 :: rest)).2 := by
  simp only [utf8.DecodeRuneInString]
  split_ifs <;> (try split) <;> (try split_ifs) <;> simp

theorem decode_two (b0 b1 : Nat) (rest : GoString) (h0 : 0xC2 ≤ b0) (h0u : b0 < 0xE0)
    (h1 : 0x80 ≤ b1) (h1u : b1 ≤ 0xBF) :
    utf8.DecodeRuneInString (b0 :: b1 :: rest) = (b0 % 0x20 * 0x40 + b1 % 0x40, 2) := by
  have e1 : ¬ b0 < 0x80 := by omega
  have e2 : ¬ b0 < 0xC2 := by omega
  have e3 : utf8.isCont b1 = true := by simp [utf8.isCont, h1, h1u]
  simp only [utf8.DecodeRuneInString, e1, e2, h0u, e3, if_true, if_false]

theorem decode_three (b0 b1 b2 : Nat) (rest : GoString) (h0 : 0xE0 ≤ b0) (h0u : b0 < 0xF0)
    (h1 : utf8.acceptLo b0 ≤ b1) (h1u : b1 ≤ utf8.acceptHi b0)
    (h2 : 0x80 ≤ b2) (h2u : b2 ≤ 0xBF) :
    utf8.DecodeRuneInString (b0 :: b1 :: b2 :: rest)
      = (b0 % 0x10 * 0x1000 + b1 % 0x40 * 0x40 + b2 % 0x40, 3) := by
  have e1 : ¬ b0 < 0x80 := by omega
  have e2 : ¬ b0 < 0xC2 := by omega
  have e3 : ¬ b0 < 0xE0 := by omega
  have e4 : utf8.isCont b2 = true := by simp [utf8.isCont, h2, h2u]
  simp only [utf8.DecodeRuneInString, e1, e2, e3, h0u, e4, h1, h1u, if_true, if_false,
    and_self]

theorem decode_four (b0 b1 b2 b3 : Nat) (rest : GoString) (h0 : 0xF0 ≤ b0) (h0u : b0 < 0xF5)
    (h1 : utf8.acceptLo b0 ≤ b1) (h1u : b1 ≤ utf8.acceptHi b0)
    (h2 : 0x80 ≤ b2) (h2u : b2 ≤ 0xBF) (h3 : 0x80 ≤ b3) (h3u : b3 ≤ 0xBF) :
    utf8.DecodeRuneInString (b0 :: b1 :: b2 :: b3 :: rest)
      = (b0 % 0x08 * 0x40000 + b1 % 0x40 * 0x1000 + b2 % 0x40 * 0x40 + b3 % 0x40, 4) := by
  have e1 : ¬ b0 < 0x80 := by omega
  have e2 : ¬ b0 < 0xC2 := by omega
  have e3 : ¬ b0 < 0xE0 := by omega
  have e5 : ¬ b0 < 0xF0 := by omega
  have e4 : utf8.isCont b2 = true := by simp [utf8.isCont, h2, h2u]
  have e6 : utf8.isCont b3 = true := by simp [utf8.isCont, h3, h3u]
  simp only [utf8.DecodeRuneInString, e1, e2, e3, e5, h0u, e4, e6, h1, h1u, if_true, if_false,
    and_self]

theorem decode_append_rune (r : Nat) (rest : GoString) :
    utf8.DecodeRuneInString (utf8.AppendRune r ++ rest)
      = (utf8.validRune r, (utf8.AppendRune r).length) := by
  unfold utf8.AppendRune utf8.validRune
  simp only [utf8.MaxRune, utf8.RuneError]
  by_cases c1 : r ≤ 0x7F
  · rw [if_pos c1, if_neg (by omega)]
    exact decode_cons_lt r rest (by omega)
  rw [if_neg c1]
  by_cases c2 : r ≤ 0x7FF
  · rw [if_pos c2, if_neg (by omega)]
    rw [List.cons_append, List.cons_append, List.nil_append,
      decode_two _ _ rest (by omega) (by omega) (by omega) (by omega)]
    simp only [List.length_cons, List.length_nil, Prod.mk.injEq, and_true]
    omega
  rw [if_neg c2]
  by_cases c3 : 0x10FFFF < r ∨ (0xD800 ≤ r ∧ r ≤ 0xDFFF)
  · rw [if_pos c3, if_pos c3]
    rw [List.cons_append, List.cons_append, List.cons_append, List.nil_append,
      decode_three _ _ _ rest (by omega) (by omega) (by simp [utf8.acceptLo])
        (by simp [utf8.acceptHi]) (by omega) (by omega)]
    rfl
  rw [if_neg c3, if_neg c3]
  by_cases c4 : r ≤ 0xFFFF
  · rw [if_pos c4]
    rw [List.cons_append, List.cons_append, List.cons_append, List.nil_append,
      decode_three _ _ _ rest (by omega) (by omega)
        (by unfold utf8.acceptLo; split_ifs <;> omega)
        (by unfold utf8.acceptHi; split_ifs <;> omega) (by omega) (by omega)]
    simp only [List.length_cons, List.length_nil, Prod.mk.injEq, and_true]
    omega
  rw [if_neg c4]
  rw [List.cons_append, List.cons_append, List.cons_append, List.cons_append, List.nil_append,
    decode_four _ _ _ _ rest (by omega) (by omega)
      (by unfold utf8.acceptLo; split_ifs <;> omega)
      (by unfold utf8.acceptHi; split_ifs <;> omega) (by omega) (by omega) (by omega) (by omega)]
  simp only [List.length_cons, List.length_nil, Prod.mk.injEq, and_true]
  omega

theorem appendRune_ne_nil (r : Nat) : utf8.AppendRune r ≠ [] := by
  unfold utf8.AppendRune
  split_ifs <;> simp

theorem rangeFrom_skip (a rest : GoString) :
    rangeFrom a.length (a ++ rest) = rangeFrom 0 rest := by
  induction a with
  | nil => rfl
  | cons x a ih =>
    cases rest with
    | nil =>
      simp only [List.length_cons, List.cons_append, rangeFrom]
      simpa using ih
    | cons y rest => simpa [rangeFrom] using ih

theorem rangeString_nil : rangeString [] = [] := rfl

theorem rangeString_cons_lt (s0 : Nat) (rest : GoString) (h : s0 < 0x80) :
    rangeString (s0 :: rest) = (s0, [s0]) :: rangeString rest := by
  simp [rangeString, rangeFrom, decode_cons_lt s0 rest h]

theorem rangeString_append_rune (r : Nat) (rest : GoString) :
    rangeString (utf8.AppendRune r ++ rest)
      = (utf8.validRune r, utf8.AppendRune r) :: rangeString rest := by
  have hd := decode_append_rune r rest
  cases hx : utf8.AppendRune r with
  | nil => exact absurd hx (appendRune_ne_nil r)
  | cons x xs =>
    rw [hx, List.cons_append] at hd
    have h1 : (x :: (xs ++ rest)).take (xs.length + 1) = x :: xs := by
      simp [List.take_succ_cons]
    show rangeFrom 0 (x :: (xs ++ rest)) = _
    rw [rangeFrom, hd]
    simp only [h1, List.length_cons, Nat.add_sub_cancel, rangeFrom_skip xs rest]
    rfl

theorem rangeString_ascii_append (p s : GoString) (hp : ∀ c ∈ p, c < 0x80) :
    rangeString (p ++ s) = p.map (fun c => (c, [c])) ++ rangeString s := by
  induction p with
  | nil => rfl
  | cons c p ih =>
    rw [List.cons_append, rangeString_cons_lt _ _ (hp c (List.mem_cons_self c p)),
      ih (fun d hd => hp d (List.mem_cons_of_mem c hd))]
    rfl

theorem rangeString_ascii (p : GoString) (hp : ∀ c ∈ p, c < 0x80) :
    rangeString p = p.map (fun c => (c, [c])) := by
  simpa [rangeString_nil] using rangeString_ascii_append p [] hp

/-- Every element of `rangeString s` is what decoding yields at some place of `s`. -/
theorem rangeFrom_mem (k : Nat) (s : GoString) (u : Nat × GoString) (hu : u ∈ rangeFrom k s) :
    ∃ s0 rest, (s0 :: rest) <:+ s ∧
      u = ((utf8.DecodeRuneInString (s0 :: rest)).1,
        (s0 :: rest).take (utf8.DecodeRuneInString (s0 :: rest)).2) := by
  induction s generalizing k with
  | nil => simp [rangeFrom] at hu
  | cons x s ih =>
    cases k with
    | zero =>
      simp only [rangeFrom, List.mem_cons] at hu
      rcases hu with hu | hu
      · exact ⟨x, s, List.suffix_refl _, hu⟩
      · obtain ⟨s0, rest, hsuf, he⟩ := ih _ hu
        exact ⟨s0, rest, hsuf.trans (List.suffix_cons x s), he⟩
    | succ k =>
      simp only [rangeFrom] at hu
      obtain ⟨s0, rest, hsuf, he⟩ := ih _ hu
      exact ⟨s0, rest, hsuf.trans (List.suffix_cons x s), he⟩

/-- An element of `rangeString s` whose rune is ASCII is that one byte of `s`. -/
theorem rangeString_mem_lt (s : GoString) (u : Nat × GoString) (hu : u ∈ rangeString s)
    (h : u.1 < 0x80) : u.2 = [u.1] ∧ u.1 ∈ s := by
  obtain ⟨s0, rest, hsuf, he⟩ := rangeFrom_mem 0 s u hu
  have h0 : s0 < 0x80 := by
    apply decode_eq_lt s0 rest u.1 (utf8.DecodeRuneInString (s0 :: rest)).2
    · rw [he]
    · exact h
  rw [decode_cons_lt s0 rest h0] at he
  subst he
  exact ⟨by simp, hsuf.subset (List.mem_cons_self s0 rest)⟩

/-- The bytes of an element of `rangeString s` are bytes of `s`. -/
theorem rangeString_mem_bytes (s : GoString) (u : Nat × GoString) (hu : u ∈ rangeString s)
    (b : Nat) (hb : b ∈ u.2) : b ∈ s := by
  obtain ⟨s0, rest, hsuf, he⟩ := rangeFrom_mem 0 s u hu
  subst he
  exact hsuf.subset (List.mem_of_mem_take hb)

/-- Encoding what was decoded gives the bytes back, except at an ill-formed
byte. -/
theorem appendRune_decode (s0 : Nat) (rest : GoString)
    (h : ¬ ((utf8.DecodeRuneInString (s0 :: rest)).1 = utf8.RuneError ∧
      (utf8.DecodeRuneInString (s0 :: rest)).2 = 1)) :
    utf8.AppendRune (utf8.DecodeRuneInString (s0 :: rest)).1
      = (s0 :: rest).take (utf8.DecodeRuneInString (s0 :: rest)).2 := by
  by_cases c1 : s0 < 0x80
  · rw [decode_cons_lt s0 rest c1]
    simp only [utf8.AppendRune, List.take_succ_cons, List.take_zero]
    rw [if_pos (by omega)]
  by_cases c2 : s0 < 0xC2
  · exfalso; apply h
    simp [utf8.DecodeRuneInString, c1, c2]
  by_cases c3 : s0 < 0xE0
  · match rest with
    | [] => exfalso; apply h; simp [utf8.DecodeRuneInString, c1, c2, c3]
    | s1 :: tl =>
      by_cases hc : 0x80 ≤ s1 ∧ s1 ≤ 0xBF
      · rw [decode_two s0 s1 tl (by omega) c3 hc.1 hc.2]
        simp only [utf8.AppendRune, List.take_succ_cons, List.take_zero]
        rw [if_neg (by omega), if_pos (by omega)]
        congr 1
        · omega
        · congr 1; omega
      · exfalso; apply h
        have : utf8.isCont s1 = false := by
          simp only [utf8.isCont, Bool.and_eq_false_iff, decide_eq_false_iff_not]; omega
        simp [utf8.DecodeRuneInString, c1, c2, c3, this]
  by_cases c4 : s0 < 0xF0
  · match rest with
    | [] => exfalso; apply h; simp [utf8.DecodeRuneInString, c1, c2, c3, c4]
    | [s1] => exfalso; apply h; simp [utf8.DecodeRuneInString, c1, c2, c3, c4]
    | s1 :: s2 :: tl =>
      by_cases hc : utf8.acceptLo s0 ≤ s1 ∧ s1 ≤ utf8.acceptHi s0 ∧ 0x80 ≤ s2 ∧ s2 ≤ 0xBF
      · rw [decode_three s0 s1 s2 tl (by omega) c4 hc.1 hc.2.1 hc.2.2.1 hc.2.2.2]
        have hlo := hc.1
        have hhi := hc.2.1
        simp only [utf8.acceptLo, utf8.acceptHi] at hlo hhi
        simp only [utf8.AppendRune, utf8.MaxRune, List.take_succ_cons, List.take_zero]
        have e1 : ¬ (s0 % 16 * 4096 + s1 % 64 * 64 + s2 % 64 ≤ 0x7F) := by
          split_ifs at hlo hhi <;> omega
        have e2 : ¬ (s0 % 16 * 4096 + s1 % 64 * 64 + s2 % 64 ≤ 0x7FF) := by
          split_ifs at hlo hhi <;> omega
        have e3 : ¬ (0x10FFFF < s0 % 16 * 4096 + s1 % 64 * 64 + s2 % 64 ∨
            (0xD800 ≤ s0 % 16 * 4096 + s1 % 64 * 64 + s2 % 64 ∧
              s0 % 16 * 4096 + s1 % 64 * 64 + s2 % 64 ≤ 0xDFFF)) := by
          split_ifs at hlo hhi <;> omega
        have e4 : s0 % 16 * 4096 + s1 % 64 * 64 + s2 % 64 ≤ 0xFFFF := by omega
        rw [if_neg e1, if_neg e2, if_neg e3, if_pos e4]
        have hs1 : 0x80 ≤ s1 ∧ s1 ≤ 0xBF := by split_ifs at hlo hhi <;> omega
        congr 1
        · omega
        · congr 1
          · omega
          · congr 1; omega
      · exfalso; apply h
        have : ¬ (utf8.acceptLo s0 ≤ s1 ∧ s1 ≤ utf8.acceptHi s0 ∧ utf8.isCont s2 = true) := by
          intro h3
          apply hc
          have := h3.2.2
          simp only [utf8.isCont, Bool.and_eq_true, decide_eq_true_eq] at this
          exact ⟨h3.1, h3.2.1, this.1, this.2⟩
        simp [utf8.DecodeRuneInString, c1, c2, c3, c4, this]
  by_cases c5 : s0 < 0xF5
  · match rest with
    | [] => exfalso; apply h; simp [utf8.DecodeRuneInString, c1, c2, c3, c4, c5]
    | [s1] => exfalso; apply h; simp [utf8.DecodeRuneInString, c1, c2, c3, c4, c5]
    | [s1, s2] => exfalso; apply h; simp [utf8.DecodeRuneInString, c1, c2, c3, c4, c5]
    | s1 :: s2 :: s3 :: tl =>
      by_cases hc : utf8.acceptLo s0 ≤ s1 ∧ s1 ≤ utf8.acceptHi s0 ∧ (0x80 ≤ s2 ∧ s2 ≤ 0xBF)
          ∧ 0x80 ≤ s3 ∧ s3 ≤ 0xBF
      · rw [decode_four s0 s1 s2 s3 tl (by omega) c5 hc.1 hc.2.1 hc.2.2.1.1 hc.2.2.1.2
          hc.2.2.2.1 hc.2.2.2.2]
        have hlo := hc.1
        have hhi := hc.2.1
        simp only [utf8.acceptLo, utf8.acceptHi] at hlo hhi
        simp only [utf8.AppendRune, utf8.MaxRune, List.take_succ_cons, List.take_zero]
        have e1 : ¬ (s0 % 8 * 262144 + s1 % 64 * 4096 + s2 % 64 * 64 + s3 % 64 ≤ 0x7F) := by
          split_ifs at hlo hhi <;> omega
        have e2 : ¬ (s0 % 8 * 262144 + s1 % 64 * 4096 + s2 % 64 * 64 + s3 % 64 ≤ 0x7FF) := by
          split_ifs at hlo hhi <;> omega
        have e3 : ¬ (0x10FFFF < s0 % 8 * 262144 + s1 % 64 * 4096 + s2 % 64 * 64 + s3 % 64 ∨
            (0xD800 ≤ s0 % 8 * 262144 + s1 % 64 * 4096 + s2 % 64 * 64 + s3 % 64 ∧
              s0 % 8 * 262144 + s1 % 64 * 4096 + s2 % 64 * 64 + s3 % 64 ≤ 0xDFFF)) := by
          split_ifs at hlo hhi <;> omega
        have e4 : ¬ (s0 % 8 * 262144 + s1 % 64 * 4096 + s2 % 64 * 64 + s3 % 64 ≤ 0xFFFF) := by
          split_ifs at hlo hhi <;> omega
        rw [if_neg e1, if_neg e2, if_neg e3, if_neg e4]
        have hs1 : 0x80 ≤ s1 ∧ s1 ≤ 0xBF := by split_ifs at hlo hhi <;> omega
        congr 1
        · omega
        · congr 1
          · omega
          · congr 1
            · omega
            · congr 1; omega
      · exfalso; apply h
        have : ¬ (utf8.acceptLo s0 ≤ s1 ∧ s1 ≤ utf8.acceptHi s0 ∧ utf8.isCont s2 = true
            ∧ utf8.isCont s3 = true) := by
          intro h3
          apply hc
          have h4 := h3.2.2.1
          have h5 := h3.2.2.2
          simp only [utf8.isCont, Bool.and_eq_true, decide_eq_true_eq] at h4 h5
          exact ⟨h3.1, h3.2.1, h4, h5⟩
        simp [utf8.DecodeRuneInString, c1, c2, c3, c4, c5, this]
  · exfalso; apply h
    simp [utf8.DecodeRuneInString, c1, c2, c3, c4, c5]

/-- `strings.Map` writes the image of every rune: copying the part on which
nothing changes is the same as writing it anew. -/
theorem map_eq_flatMap (mapping : Nat → Nat) (s : GoString) :
    strings.Map mapping s
      = (rangeString s).flatMap (fun u => utf8.AppendRune (mapping u.1)) := by
  unfold strings.Map
  have hall : ∀ u ∈ rangeString s, isInvalidByte u = false → utf8.AppendRune u.1 = u.2 := by
    intro u hu hi
    obtain ⟨s0, rest, _, he⟩ := rangeFrom_mem 0 s u hu
    subst he
    apply appendRune_decode
    intro hc
    have : isInvalidByte ((utf8.DecodeRuneInString (s0 :: rest)).1,
        (s0 :: rest).take (utf8.DecodeRuneInString (s0 :: rest)).2) = true := by
      simp only [isInvalidByte, hc.1, hc.2, beq_self_eq_true, Bool.true_and, beq_iff_eq]
      simp
    rw [this] at hi
    exact absurd hi (by simp)
  generalize rangeString s = us at hall
  induction us with
  | nil => rfl
  | cons u us ih =>
    rw [mapLoop, List.flatMap_cons]
    split_ifs with hc
    · rw [ih (fun v hv => hall v (List.mem_cons_of_mem u hv)), hc.1,
        hall u (List.mem_cons_self u us) hc.2]
    · rfl

/-! ## `strings.ToLower` and `strings.ToValidUTF8` -/

theorem appendRune_mem (r b : Nat) (hb : b ∈ utf8.AppendRune r) :
    (r ≤ 0x7F ∧ b = r) ∨ 0x80 ≤ b := by
  unfold utf8.AppendRune at hb
  split_ifs at hb with h1 h2 h3 h4
  · left; simp at hb; exact ⟨h1, hb⟩
  all_goals
    right
    simp only [List.mem_cons, List.mem_singleton, List.not_mem_nil, or_false] at hb
    omega

theorem appendRune_lt (r : Nat) (h : r < 0x80) : utf8.AppendRune r = [r] := by
  unfold utf8.AppendRune
  rw [if_pos (by omega)]

theorem unicode_toLower_not_upper (toLowerCase : Nat → Nat)
    (htbl : ∀ r, 0x7F < r → isUpperASCII (toLowerCase r) = false) (r : Nat) :
    isUpperASCII (unicode.ToLower toLowerCase r) = false := by
  unfold unicode.ToLower
  split_ifs with h1 h2
  · simp only [isUpperASCII, Bool.and_eq_true, decide_eq_true_eq] at h2
    simp only [isUpperASCII, Bool.and_eq_false_iff, decide_eq_false_iff_not]
    omega
  · simpa using h2
  · exact htbl r (by unfold unicode.MaxASCII at h1; omega)

/-- On an all-ASCII string the two branches of `strings.ToLower` agree. -/
theorem toLower_eq_map (toLowerCase : Nat → Nat) (s : GoString) :
    strings.ToLower toLowerCase s = strings.Map (unicode.ToLower toLowerCase) s := by
  unfold strings.ToLower
  split_ifs with h1 h2
  · -- all ASCII, some upper-case letter
    simp only [List.all_eq_true, decide_eq_true_eq, utf8.RuneSelf] at h1
    rw [map_eq_flatMap, rangeString_ascii s h1]
    clear h2
    induction s with
    | nil => rfl
    | cons c s ih =>
      have hc := h1 c (List.mem_cons_self c s)
      simp only [List.map_cons, List.flatMap_cons]
      rw [← ih (fun d hd => h1 d (List.mem_cons_of_mem c hd))]
      have : unicode.ToLower toLowerCase c = if isUpperASCII c then c + 0x20 else c := by
        unfold unicode.ToLower unicode.MaxASCII
        rw [if_pos (by omega)]
      rw [this]
      have h3 : (if isUpperASCII c = true then c + 0x20 else c) < 0x80 := by
        split_ifs with hu
        · simp only [isUpperASCII, Bool.and_eq_true, decide_eq_true_eq] at hu; omega
        · exact hc
      rw [appendRune_lt _ h3]
      rfl
  · simp only [List.all_eq_true, decide_eq_true_eq, utf8.RuneSelf] at h1
    rw [map_eq_flatMap, rangeString_ascii s h1]
    induction s with
    | nil => rfl
    | cons c s ih =>
      have hc := h1 c (List.mem_cons_self c s)
      simp only [List.any_cons, Bool.or_eq_true, not_or, Bool.not_eq_true] at h2
      simp only [List.map_cons, List.flatMap_cons]
      rw [← ih (by simpa using h2.2) (fun d hd => h1 d (List.mem_cons_of_mem c hd))]
      have : unicode.ToLower toLowerCase c = c := by
        unfold unicode.ToLower unicode.MaxASCII
        rw [if_pos (by omega), if_neg (by simp [h2.1])]
      rw [this, appendRune_lt _ hc]
      rfl
  · rfl

/-- No byte of a lower-cased string is an upper-case ASCII letter, as long as the
case table maps no rune to one. -/
theorem toLower_not_upper (toLowerCase : Nat → Nat)
    (htbl : ∀ r, 0x7F < r → isUpperASCII (toLowerCase r) = false) (s : GoString) (b : Nat)
    (hb : b ∈ strings.ToLower toLowerCase s) : isUpperASCII b = false := by
  rw [toLower_eq_map, map_eq_flatMap] at hb
  simp only [List.mem_flatMap] at hb
  obtain ⟨u, _, hbu⟩ := hb
  rcases appendRune_mem _ _ hbu with ⟨_, h⟩ | h
  · rw [h]; exact unicode_toLower_not_upper toLowerCase htbl u.1
  · simp only [isUpperASCII, Bool.and_eq_false_iff, decide_eq_false_iff_not]
    omega

theorem toValidLoop_mem (invalid : Bool) (us : List (Nat × GoString)) (b : Nat)
    (hb : b ∈ toValidLoop [] invalid us) : ∃ u ∈ us, b ∈ u.2 := by
  induction us generalizing invalid with
  | nil => simp [toValidLoop] at hb
  | cons u us ih =>
    simp only [toValidLoop] at hb
    by_cases hi : isInvalidByte u = true
    · rw [if_pos hi] at hb
      have hb2 : b ∈ toValidLoop [] true us := by
        cases invalid <;> simpa using hb
      obtain ⟨v, hv, hbv⟩ := ih _ hb2
      exact ⟨v, List.mem_cons_of_mem u hv, hbv⟩
    · rw [if_neg hi, List.mem_append] at hb
      rcases hb with hb | hb
      · exact ⟨u, List.mem_cons_self u us, hb⟩
      · obtain ⟨v, hv, hbv⟩ := ih _ hb
        exact ⟨v, List.mem_cons_of_mem u hv, hbv⟩

/-- `ToValidUTF8(s, "")` only removes bytes. -/
theorem toValidUTF8_mem (s : GoString) (b : Nat) (hb : b ∈ strings.ToValidUTF8 s []) :
    b ∈ s := by
  obtain ⟨u, hu, hbu⟩ := toValidLoop_mem false (rangeString s) b hb
  exact rangeString_mem_bytes s u hu b hbu

/-! ## The patterns -/

theorem literal_run (c : Nat) (atStart : Bool) (us : List (Nat × GoString))
    (k : Bool → List (Nat × GoString) → Option (List (Nat × GoString))) :
    (Regexp.literal c).run atStart us k
      = match us with
        | u :: rest => if (u.1 == c) = true then k false rest else none
        | [] => none := by
  cases us <;> simp [Regexp.run]

theorem notClass_run (atStart : Bool) (us : List (Nat × GoString))
    (k : Bool → List (Nat × GoString) → Option (List (Nat × GoString))) :
    (Regexp.notClass
        [(0x41, 0x5A), (0x61, 0x7A), (0x30, 0x39), (0x5F, 0x5F), (0x2E, 0x2E), (0x2D, 0x2D)]).run
      atStart us k
      = match us with
        | u :: rest => if disallowedSlugChar u.1 = true then k false rest else none
        | [] => none := by
  cases us with
  | nil => simp [Regexp.run]
  | cons u rest =>
    have h : ([(0x41, 0x5A), (0x61, 0x7A), (0x30, 0x39), (0x5F, 0x5F), (0x2E, 0x2E),
        (0x2D, 0x2D)] : List (Nat × Nat)).all (fun r => !(r.1 ≤ u.1 && u.1 ≤ r.2))
        = disallowedSlugChar u.1 := by
      simp only [List.all_cons, List.all_nil, disallowedSlugChar, Bool.and_true]
      rw [Bool.eq_iff_iff]
      simp only [Bool.and_eq_true, Bool.not_eq_true', Bool.and_eq_false_iff,
        decide_eq_false_iff_not, Bool.or_eq_false_iff, beq_eq_false_iff_ne, ne_eq,
        decide_eq_true_eq, Bool.not_eq_eq_eq_not, Bool.not_true]
      omega
    simp only [Regexp.run, h]

/-- The repetition of a one-rune pattern takes the longest run. -/
theorem plusLoop_atom (step : Bool → List (Nat × GoString) →
      (Bool → List (Nat × GoString) → Option (List (Nat × GoString))) →
      Option (List (Nat × GoString))) (p : Nat → Bool)
    (hstep : ∀ atStart us k, step atStart us k
      = match us with
        | u :: rest => if p u.1 = true then k false rest else none
        | [] => none)
    (fuel : Nat) (atStart : Bool) (us : List (Nat × GoString)) (hf : us.length < fuel) :
    Regexp.plusLoop step fuel atStart us (fun _ rest => some rest)
      = match us with
        | u :: rest => if p u.1 = true then some (rest.dropWhile (fun v => p v.1)) else none
        | [] => none := by
  induction fuel generalizing atStart us with
  | zero => exact absurd hf (Nat.not_lt_zero _)
  | succ fuel ih =>
    rw [Regexp.plusLoop, hstep]
    cases us with
    | nil => rfl
    | cons u rest =>
      simp only
      by_cases hp : p u.1 = true
      · rw [if_pos hp, if_pos hp, if_pos (by simp),
          ih false rest (by simpa using hf)]
        cases rest with
        | nil => rfl
        | cons v r2 =>
          simp only
          by_cases hv : p v.1 = true
          · simp [hv]
          · simp [hv]
      · rw [if_neg hp, if_neg hp]

theorem replaceRuns_dropWhile (cls : Nat → Bool) (repl : GoString)
    (us : List (Nat × GoString)) :
    replaceRuns cls repl true us
      = replaceRuns cls repl false (us.dropWhile (fun v => cls v.1)) := by
  induction us with
  | nil => rfl
  | cons u us ih =>
    by_cases hc : cls u.1 = true
    · rw [List.dropWhile_cons_of_pos (by simpa using hc)]
      simp only [replaceRuns, hc, if_true, List.nil_append]
      exact ih
    · rw [List.dropWhile_cons_of_neg (by simpa using hc)]
      simp only [replaceRuns, hc, Bool.false_eq_true, if_false]

/-- What `find` yields for the repetition of a one-rune pattern, in terms of
`replaceRuns`. -/
theorem find_plus_atom (a : Regexp) (p : Nat → Bool)
    (hstep : ∀ atStart us k, a.run atStart us k
      = match us with
        | u :: rest => if p u.1 = true then k false rest else none
        | [] => none)
    (repl : GoString) (us : List (Nat × GoString)) (atStart : Bool) :
    match (Regexp.plus a).find atStart us with
    | none => replaceRuns p repl false us = us.flatMap Prod.snd
    | some (skipped, rest) => rest.length < us.length ∧
        replaceRuns p repl false us
          = skipped.flatMap Prod.snd ++ repl ++ replaceRuns p repl false rest := by
  induction us generalizing atStart with
  | nil =>
    simp only [Regexp.find, Regexp.run]
    rw [plusLoop_atom a.run p hstep _ _ _ (by simp)]
    rfl
  | cons u us ih =>
    simp only [Regexp.find, Regexp.run]
    rw [plusLoop_atom a.run p hstep _ _ _ (by simp)]
    simp only
    by_cases hp : p u.1 = true
    · simp only [hp, if_true, List.length_cons, List.flatMap_nil, List.nil_append, replaceRuns,
        Bool.false_eq_true, if_false]
      refine ⟨?_, by rw [replaceRuns_dropWhile]⟩
      have := (List.dropWhile_sublist (fun v => p v.1) (l := us)).length_le
      omega
    · simp only [hp, Bool.false_eq_true, if_false]
      have h := ih false
      cases hfind : (Regexp.plus a).find false us with
      | none =>
        rw [hfind] at h
        simp only at h
        simp only [Option.map_none', replaceRuns, hp, Bool.false_eq_true, if_false,
          List.flatMap_cons, h]
      | some r =>
        obtain ⟨skipped, rest⟩ := r
        rw [hfind] at h
        simp only at h
        simp only [Option.map_some', replaceRuns, hp, Bool.false_eq_true, if_false,
          List.flatMap_cons, List.length_cons, h.2, List.append_assoc]
        exact ⟨by omega, trivial⟩

/-- Replacing all matches of the repetition of a one-rune pattern replaces the
maximal runs. -/
theorem replaceLoop_plus_atom (a : Regexp) (p : Nat → Bool)
    (hstep : ∀ atStart us k, a.run atStart us k
      = match us with
        | u :: rest => if p u.1 = true then k false rest else none
        | [] => none)
    (repl : GoString) (fuel : Nat) (atStart : Bool) (pending us : List (Nat × GoString))
    (hf : us.length < fuel) :
    (Regexp.plus a).replaceLoop repl fuel atStart pending us
      = pending.flatMap Prod.snd ++ replaceRuns p repl false us := by
  induction fuel generalizing atStart pending us with
  | zero => exact absurd hf (Nat.not_lt_zero _)
  | succ fuel ih =>
    have h := find_plus_atom a p hstep repl us atStart
    simp only [Regexp.replaceLoop]
    cases hfind : (Regexp.plus a).find atStart us with
    | none =>
      rw [hfind] at h
      simp only at h
      simp only [List.flatMap_append, h]
    | some r =>
      obtain ⟨skipped, rest⟩ := r
      rw [hfind] at h
      simp only at h
      have hne : ¬ ((skipped.isEmpty && rest.length == us.length) = true) := by
        simp only [Bool.and_eq_true, beq_iff_eq, not_and]
        intro _
        omega
      simp only [hne, if_false]
      rw [ih false [] rest (by omega), h.2]
      simp only [List.flatMap_append, List.flatMap_nil, List.nil_append, List.append_assoc,
        Bool.false_eq_true, if_false]

theorem disallowed_eq (src repl : GoString) :
    disallowedSlugChars.ReplaceAllLiteralString src repl
      = replaceRuns disallowedSlugChar repl false (rangeString src) := by
  unfold Regexp.ReplaceAllLiteralString disallowedSlugChars
  rw [replaceLoop_plus_atom _ disallowedSlugChar notClass_run _ _ _ _ _ (Nat.lt_succ_self _)]
  rfl

theorem deduper_eq (src repl : GoString) :
    slugReplacementDeduper.ReplaceAllLiteralString src repl
      = replaceRuns isHyphen repl false (rangeString src) := by
  unfold Regexp.ReplaceAllLiteralString slugReplacementDeduper
  rw [replaceLoop_plus_atom _ isHyphen (literal_run 0x2D) _ _ _ _ _ (Nat.lt_succ_self _)]
  rfl

theorem run_alternate (a b : Regexp) (atStart : Bool) (us : List (Nat × GoString))
    (k : Bool → List (Nat × GoString) → Option (List (Nat × GoString))) :
    (Regexp.alternate a b).run atStart us k
      = (a.run atStart us k).orElse (fun _ => b.run atStart us k) := by
  rw [Regexp.run]

theorem run_concat (a b : Regexp) (atStart : Bool) (us : List (Nat × GoString))
    (k : Bool → List (Nat × GoString) → Option (List (Nat × GoString))) :
    (Regexp.concat a b).run atStart us k
      = a.run atStart us (fun atStart2 rest => b.run atStart2 rest k) := by
  rw [Regexp.run]

theorem run_plus (a : Regexp) (atStart : Bool) (us : List (Nat × GoString))
    (k : Bool → List (Nat × GoString) → Option (List (Nat × GoString))) :
    (Regexp.plus a).run atStart us k = Regexp.plusLoop a.run (us.length + 1) atStart us k := by
  rw [Regexp.run]

theorem run_beginText (atStart : Bool) (us : List (Nat × GoString))
    (k : Bool → List (Nat × GoString) → Option (List (Nat × GoString))) :
    Regexp.beginText.run atStart us k = if atStart = true then k atStart us else none := by
  rw [Regexp.run]

theorem replaceLoop_succ (re : Regexp) (repl : GoString) (fuel : Nat) (atStart : Bool)
    (pending us : List (Nat × GoString)) :
    re.replaceLoop repl (fuel + 1) atStart pending us
      = match re.find atStart us with
        | none => (pending ++ us).flatMap Prod.snd
        | some (skipped, rest) =>
          if skipped.isEmpty && rest.length == us.length then
            pending.flatMap Prod.snd ++ (if pending.isEmpty && !atStart then [] else repl) ++
              match us with
              | [] => []
              | u :: us1 => re.replaceLoop repl fuel false [u] us1
          else
            (pending ++ skipped).flatMap Prod.snd ++ repl
              ++ re.replaceLoop repl fuel false [] rest := by
  simp only [Regexp.replaceLoop]

/-- The rest `-$` of the second alternative of `slugReplacementTrimmer`. -/
theorem hyphen_end_run (atStart : Bool) (us : List (Nat × GoString)) :
    (Regexp.concat (Regexp.literal 0x2D) Regexp.endText).run atStart us (fun _ rest => some rest)
      = if us.length = 1 ∧ us.all (fun v => isHyphen v.1) = true then some [] else none := by
  cases us with
  | nil => simp [Regexp.run]
  | cons u rest =>
    cases rest with
    | nil => simp [Regexp.run, isHyphen]
    | cons v r => simp [Regexp.run]

/-- The second alternative `-+-$` matches at a place exactly when only hyphens
follow, at least two of them. -/
theorem plusLoop_tail (fuel : Nat) (atStart : Bool) (us : List (Nat × GoString))
    (hf : us.length < fuel) :
    Regexp.plusLoop (Regexp.literal 0x2D).run fuel atStart us
        (fun atStart2 rest =>
          (Regexp.concat (Regexp.literal 0x2D) Regexp.endText).run atStart2 rest
            (fun _ rest => some rest))
      = if us.all (fun v => isHyphen v.1) = true ∧ 2 ≤ us.length then some [] else none := by
  induction fuel generalizing atStart us with
  | zero => exact absurd hf (Nat.not_lt_zero _)
  | succ fuel ih =>
    rw [Regexp.plusLoop, literal_run]
    cases us with
    | nil => simp
    | cons u rest =>
      simp only
      by_cases hu : (u.1 == 0x2D) = true
      · rw [if_pos hu, if_pos (by simp), ih false rest (by simpa using hf), hyphen_end_run]
        have hu2 : isHyphen u.1 = true := hu
        cases rest with
        | nil => simp
        | cons v r =>
          cases r with
          | nil =>
            by_cases hv : isHyphen v.1 = true <;> simp [hu2, hv]
          | cons w r2 =>
            by_cases hv : ((v :: w :: r2).all (fun x => isHyphen x.1)) = true
            · simp only [List.all_cons, Bool.and_eq_true] at hv
              simp [hu2, hv.1, hv.2.1, hv.2.2]
            · have : ¬ ((u :: v :: w :: r2).all (fun x => isHyphen x.1) = true) := by
                simp only [List.all_cons, Bool.and_eq_true] at hv ⊢
                exact fun h => hv h.2
              simp only [hv, this, false_and, if_false, List.length_cons]
              simp
      · rw [if_neg hu]
        have hu2 : ¬ isHyphen u.1 = true := hu
        simp [hu2]

/-- What `slugReplacementTrimmer` matches at a place. -/
theorem trimmer_run (atStart : Bool) (us : List (Nat × GoString)) :
    slugReplacementTrimmer.run atStart us (fun _ rest => some rest)
      = match us with
        | [] => none
        | u :: rest =>
          if atStart = true ∧ isHyphen u.1 = true then
            some (rest.dropWhile (fun v => isHyphen v.1))
          else if (u :: rest).all (fun v => isHyphen v.1) = true ∧ 2 ≤ (u :: rest).length then
            some []
          else none := by
  unfold slugReplacementTrimmer
  rw [run_alternate, run_concat, run_beginText, run_plus, run_concat, run_plus,
    plusLoop_tail _ _ _ (Nat.lt_succ_self _),
    plusLoop_atom _ isHyphen (literal_run 0x2D) _ _ _ (Nat.lt_succ_self _)]
  cases atStart with
  | false =>
    cases us with
    | nil => simp
    | cons u rest => simp
  | true =>
    cases us with
    | nil => simp
    | cons u rest =>
      by_cases hu : isHyphen u.1 = true
      · simp [hu]
      · simp [hu]

/-- What `find` yields for `slugReplacementTrimmer` away from the beginning of
the text, in terms of `trimTrailing`. -/
theorem trimmer_find (repl : GoString) (us : List (Nat × GoString)) :
    match slugReplacementTrimmer.find false us with
    | none => trimTrailing repl us = us.flatMap Prod.snd
    | some (skipped, rest) => rest.length < us.length ∧
        trimTrailing repl us = skipped.flatMap Prod.snd ++ repl ∧ rest = [] := by
  induction us with
  | nil =>
    simp only [Regexp.find, trimmer_run]
    rfl
  | cons u us ih =>
    simp only [Regexp.find, trimmer_run, List.length_cons, Bool.false_eq_true, false_and,
      if_false]
    by_cases hc : (u :: us).all (fun v => isHyphen v.1) = true ∧ 2 ≤ us.length + 1
    · rw [if_pos hc]
      simp only [trimTrailing, List.length_cons, hc, and_self, if_true, List.length_nil,
        List.flatMap_nil, List.nil_append, and_true]
      omega
    · rw [if_neg hc]
      cases hfind : slugReplacementTrimmer.find false us with
      | none =>
        rw [hfind] at ih
        simp only at ih
        simp only [Option.map_none', trimTrailing, List.length_cons, hc, if_false,
          List.flatMap_cons, ih]
      | some r =>
        obtain ⟨skipped, rest⟩ := r
        rw [hfind] at ih
        simp only at ih
        obtain ⟨i1, i2, rfl⟩ := ih
        simp only [Option.map_some', trimTrailing, List.length_cons, hc, if_false,
          List.flatMap_cons, i2, List.length_nil, List.append_assoc, and_true]
        omega

theorem trimmer_replaceLoop (repl : GoString) (fuel : Nat) (pending us : List (Nat × GoString))
    (hf : 0 < fuel) :
    slugReplacementTrimmer.replaceLoop repl fuel false pending us
      = pending.flatMap Prod.snd ++ trimTrailing repl us := by
  obtain ⟨fuel, rfl⟩ : ∃ n, fuel = n + 1 := ⟨fuel - 1, by omega⟩
  have h := trimmer_find repl us
  rw [replaceLoop_succ]
  cases hfind : slugReplacementTrimmer.find false us with
  | none =>
    rw [hfind] at h
    simp only at h
    simp only [List.flatMap_append, h]
  | some r =>
    obtain ⟨skipped, rest⟩ := r
    rw [hfind] at h
    simp only at h
    obtain ⟨h1, h2, rfl⟩ := h
    have hne : ¬ ((skipped.isEmpty && ([] : List (Nat × GoString)).length == us.length) = true) := by
      simp only [Bool.and_eq_true, beq_iff_eq, not_and, List.length_nil]
      intro _
      simp only [List.length_nil] at h1
      omega
    have hend : slugReplacementTrimmer.replaceLoop repl fuel false [] [] = [] := by
      cases fuel with
      | zero => rfl
      | succ n => simp [replaceLoop_succ, Regexp.find, trimmer_run]
    simp only
    rw [if_neg hne, hend, h2]
    simp only [List.flatMap_append, List.append_assoc, List.append_nil]

theorem trimmer_eq (src repl : GoString) :
    slugReplacementTrimmer.ReplaceAllLiteralString src repl
      = trimBothEnds repl (rangeString src) := by
  unfold Regexp.ReplaceAllLiteralString trimBothEnds
  generalize rangeString src = us
  cases us with
  | nil => simp [replaceLoop_succ, Regexp.find, trimmer_run]
  | cons u us =>
    rw [replaceLoop_succ]
    by_cases hu : isHyphen u.1 = true
    · have hlen := (List.dropWhile_sublist (fun v : Nat × GoString => isHyphen v.1)
        (l := us)).length_le
      have hne : ¬ ((us.dropWhile (fun v => isHyphen v.1)).length = us.length + 1) := by omega
      simp only [Regexp.find, trimmer_run, hu, and_self, if_true,
        List.isEmpty_nil, Bool.true_and, beq_iff_eq, List.length_cons, hne, if_false,
        List.append_nil, List.flatMap_nil, List.nil_append, List.head?_cons]
      rw [trimmer_replaceLoop _ _ _ _ (by simp), List.dropWhile_cons_of_pos (by simpa using hu)]
      rfl
    · have h := trimmer_replaceLoop repl ((u :: us).length + 1) [] (u :: us) (by simp)
      simp only [List.flatMap_nil, List.nil_append] at h
      simp only [List.head?_cons, hu, Bool.false_eq_true, if_false]
      rw [← h, replaceLoop_succ]
      have hall : ¬ ((u :: us).all (fun v => isHyphen v.1) = true ∧ 2 ≤ (u :: us).length) := by
        simp [hu]
      simp only [Regexp.find, trimmer_run, hu, and_false, if_false, Bool.false_eq_true,
        false_and, hall]
      cases slugReplacementTrimmer.find false us with
      | none => rfl
      | some r => simp

/-! ## The three replacements -/

theorem allowed_lt (c : Nat) (h : disallowedSlugChar c = false) : c < 0x80 := by
  simp only [disallowedSlugChar, Bool.not_eq_false', Bool.or_eq_true, Bool.and_eq_true,
    decide_eq_true_eq, beq_iff_eq] at h
  omega

theorem slugChar_of_allowed (c : Nat) (h : disallowedSlugChar c = false)
    (hu : isUpperASCII c = false) : slugChar c = true := by
  simp only [disallowedSlugChar, Bool.not_eq_false', Bool.or_eq_true, Bool.and_eq_true,
    decide_eq_true_eq, beq_iff_eq] at h
  simp only [isUpperASCII, Bool.and_eq_false_iff, decide_eq_false_iff_not] at hu
  simp only [slugChar, Bool.or_eq_true, Bool.and_eq_true, decide_eq_true_eq, beq_iff_eq]
  omega

theorem allowed_of_slugChar (c : Nat) (h : slugChar c = true) :
    disallowedSlugChar c = false := by
  simp only [slugChar, Bool.or_eq_true, Bool.and_eq_true, decide_eq_true_eq, beq_iff_eq] at h
  simp only [disallowedSlugChar, Bool.not_eq_false', Bool.or_eq_true, Bool.and_eq_true,
    decide_eq_true_eq, beq_iff_eq]
  omega

theorem not_upper_of_slugChar (c : Nat) (h : slugChar c = true) : isUpperASCII c = false := by
  simp only [slugChar, Bool.or_eq_true, Bool.and_eq_true, decide_eq_true_eq, beq_iff_eq] at h
  simp only [isUpperASCII, Bool.and_eq_false_iff, decide_eq_false_iff_not]
  omega

theorem slugChar_lt (c : Nat) (h : slugChar c = true) : c < 0x80 :=
  allowed_lt c (allowed_of_slugChar c h)

theorem replaceRuns_mem (cls : Nat → Bool) (repl : GoString) (inMatch : Bool)
    (us : List (Nat × GoString)) (b : Nat) (hb : b ∈ replaceRuns cls repl inMatch us) :
    b ∈ repl ∨ ∃ u ∈ us, cls u.1 = false ∧ b ∈ u.2 := by
  induction us generalizing inMatch with
  | nil => simp [replaceRuns] at hb
  | cons u us ih =>
    simp only [replaceRuns] at hb
    by_cases hc : cls u.1 = true
    · rw [if_pos hc, List.mem_append] at hb
      rcases hb with hb | hb
      · left
        cases inMatch
        · simpa using hb
        · simp at hb
      · rcases ih _ hb with h | ⟨v, hv, h⟩
        · exact Or.inl h
        · exact Or.inr ⟨v, List.mem_cons_of_mem u hv, h⟩
    · rw [if_neg hc, List.mem_append] at hb
      rcases hb with hb | hb
      · exact Or.inr ⟨u, List.mem_cons_self u us, by simpa using hc, hb⟩
      · rcases ih _ hb with h | ⟨v, hv, h⟩
        · exact Or.inl h
        · exact Or.inr ⟨v, List.mem_cons_of_mem u hv, h⟩

/-- What is left after the disallowed runs are replaced is in `[A-Za-z0-9_.-]`, and
is a byte of the source or the hyphen put in. -/
theorem disallowed_replace_mem (src : GoString) (b : Nat)
    (hb : b ∈ disallowedSlugChars.ReplaceAllLiteralString src [0x2D]) :
    disallowedSlugChar b = false ∧ (b = 0x2D ∨ b ∈ src) := by
  rw [disallowed_eq] at hb
  rcases replaceRuns_mem _ _ _ _ b hb with h | ⟨u, hu, hc, hbu⟩
  · simp only [List.mem_singleton] at h
    subst h
    exact ⟨by decide, Or.inl rfl⟩
  · have h1 := rangeString_mem_lt src u hu (allowed_lt _ hc)
    rw [h1.1, List.mem_singleton] at hbu
    subst hbu
    exact ⟨hc, Or.inr h1.2⟩

theorem deduper_replace_mem (src : GoString) (b : Nat)
    (hb : b ∈ slugReplacementDeduper.ReplaceAllLiteralString src [0x2D]) :
    b = 0x2D ∨ b ∈ src := by
  rw [deduper_eq] at hb
  rcases replaceRuns_mem _ _ _ _ b hb with h | ⟨u, hu, _, hbu⟩
  · exact Or.inl (by simpa using h)
  · exact Or.inr (rangeString_mem_bytes src u hu b hbu)

/-- Deduping an ASCII string leaves no two hyphens side by side. -/
theorem dedupe_chain (s : GoString) (inMatch : Bool) :
    noHyphenPair (replaceRuns isHyphen [0x2D] inMatch (s.map (fun c => (c, [c])))) ∧
    (inMatch = true →
      (replaceRuns isHyphen [0x2D] inMatch (s.map (fun c => (c, [c])))).head? ≠ some 0x2D) := by
  induction s generalizing inMatch with
  | nil => simp [replaceRuns, noHyphenPair]
  | cons c s ih =>
    simp only [List.map_cons, replaceRuns]
    by_cases hc : c = 0x2D
    · subst hc
      have h1 := ih true
      simp only [isHyphen, beq_self_eq_true, if_true]
      cases inMatch
      · refine ⟨?_, by simp⟩
        simp only [Bool.false_eq_true, if_false, List.singleton_append]
        unfold noHyphenPair at h1 ⊢
        rw [List.chain'_cons']
        refine ⟨?_, h1.1⟩
        intro y hy h
        exact h1.2 rfl (by rw [hy, h.2])
      · simpa using h1
    · have h1 := ih false
      have hh : isHyphen c = false := by simp [isHyphen, hc]
      simp only [hh, Bool.false_eq_true, if_false, List.singleton_append]
      refine ⟨?_, by simp [hc]⟩
      unfold noHyphenPair at h1 ⊢
      rw [List.chain'_cons']
      exact ⟨fun y _ h => hc h.1, h1.1⟩

/-- Deduping changes nothing in an ASCII string without two hyphens side by side. -/
theorem dedupe_id (s : GoString) (inMatch : Bool) (hs : noHyphenPair s)
    (hh : inMatch = true → s.head? ≠ some 0x2D) :
    replaceRuns isHyphen [0x2D] inMatch (s.map (fun c => (c, [c]))) = s := by
  induction s generalizing inMatch with
  | nil => rfl
  | cons c s ih =>
    unfold noHyphenPair at hs
    rw [List.chain'_cons'] at hs
    simp only [List.map_cons, replaceRuns]
    by_cases hc : c = 0x2D
    · subst hc
      have hin : inMatch = false := by
        cases inMatch
        · rfl
        · exact absurd rfl (hh rfl)
      subst hin
      simp only [isHyphen, beq_self_eq_true, if_true, Bool.false_eq_true, if_false,
        List.singleton_append]
      rw [ih true hs.2 (fun _ h => hs.1 _ h ⟨rfl, rfl⟩)]
    · have hh2 : isHyphen c = false := by simp [isHyphen, hc]
      simp only [hh2, Bool.false_eq_true, if_false, List.singleton_append]
      rw [ih false hs.2 (by simp)]

/-- `-+-$` finds nothing in an ASCII string without two hyphens side by side. -/
theorem trimTrailing_id (s : GoString) (hs : noHyphenPair s) :
    trimTrailing [] (s.map (fun c => (c, [c]))) = s := by
  induction s with
  | nil => rfl
  | cons c s ih =>
    unfold noHyphenPair at hs
    rw [List.chain'_cons'] at hs
    simp only [List.map_cons, trimTrailing]
    rw [if_neg, ih hs.2]
    · rfl
    · rintro ⟨hall, hlen⟩
      cases s with
      | nil => simp at hlen
      | cons d s =>
        simp only [List.map_cons, List.all_cons, Bool.and_eq_true, isHyphen, beq_iff_eq] at hall
        exact hs.1 d rfl ⟨hall.1, hall.2.1⟩

/-- On an ASCII string without two hyphens side by side, trimming removes the
leading hyphen and nothing else. -/
theorem trimmer_chain (s : GoString) (ha : ∀ c ∈ s, c < 0x80) (hs : noHyphenPair s) :
    slugReplacementTrimmer.ReplaceAllLiteralString s []
      = if s.head? = some 0x2D then s.tail else s := by
  rw [trimmer_eq]
  unfold trimBothEnds
  rw [rangeString_ascii s ha]
  cases s with
  | nil => rfl
  | cons c s =>
    simp only [List.map_cons, List.head?_cons, List.tail_cons, Option.some.injEq]
    by_cases hc : c = 0x2D
    · subst hc
      unfold noHyphenPair at hs
      rw [List.chain'_cons'] at hs
      simp only [isHyphen, beq_self_eq_true, if_true, List.nil_append]
      have hd : List.dropWhile (fun v : Nat × GoString => v.1 == 0x2D)
          ((0x2D, [0x2D]) :: s.map (fun c => (c, [c]))) = s.map (fun c => (c, [c])) := by
        rw [List.dropWhile_cons_of_pos (by simp)]
        cases s with
        | nil => rfl
        | cons d s =>
          rw [List.map_cons, List.dropWhile_cons_of_neg]
          simp only [beq_iff_eq]
          exact fun h => hs.1 d rfl ⟨rfl, h⟩
      rw [hd]
      exact trimTrailing_id s hs.2
    · have hh2 : isHyphen c = false := by simp [isHyphen, hc]
      simp only [hh2, Bool.false_eq_true, if_false, hc]
      exact trimTrailing_id (c :: s) hs

/-! ## The slug -/

theorem str_hyphen : str "-" = [0x2D] := by decide

theorem str_empty : str "" = [] := by decide

theorem str_md : str ".md" = [0x2E, 0x6D, 0x64] := by decide

theorem str_dot : str "." = [0x2E] := by decide

theorem str_dotdot : str ".." = [0x2E, 0x2E] := by decide

/-- The shape of every slug: characters of `[A-Za-z0-9_.-]` only, no two hyphens
side by side, no hyphen in front. -/
theorem escapedTitle_shape (toLowerCase : Nat → Nat) (title : GoString) :
    (∀ b ∈ escapedTitle toLowerCase title, disallowedSlugChar b = false ∧
      (b = 0x2D ∨ b ∈ strings.ToLower toLowerCase title)) ∧
    noHyphenPair (escapedTitle toLowerCase title) ∧
    (escapedTitle toLowerCase title).head? ≠ some 0x2D := by
  simp only [escapedTitle, str_hyphen, str_empty]
  generalize hs3 : disallowedSlugChars.ReplaceAllLiteralString
    (strings.ToValidUTF8 (strings.ToLower toLowerCase title) []) [0x2D] = s3
  have h3 : ∀ b ∈ s3, disallowedSlugChar b = false ∧
      (b = 0x2D ∨ b ∈ strings.ToLower toLowerCase title) := by
    intro b hb
    rw [← hs3] at hb
    have := disallowed_replace_mem _ b hb
    exact ⟨this.1, this.2.imp id (toValidUTF8_mem _ b)⟩
  have h3a : ∀ b ∈ s3, b < 0x80 := fun b hb => allowed_lt b (h3 b hb).1
  generalize hs4 : slugReplacementDeduper.ReplaceAllLiteralString s3 [0x2D] = s4
  have h4 : ∀ b ∈ s4, disallowedSlugChar b = false ∧
      (b = 0x2D ∨ b ∈ strings.ToLower toLowerCase title) := by
    intro b hb
    rw [← hs4] at hb
    rcases deduper_replace_mem _ b hb with h | h
    · subst h; exact ⟨by decide, Or.inl rfl⟩
    · exact h3 b h
  have h4a : ∀ b ∈ s4, b < 0x80 := fun b hb => allowed_lt b (h4 b hb).1
  have h4c : noHyphenPair s4 := by
    rw [← hs4]
    rw [deduper_eq]
    rw [rangeString_ascii s3 h3a]
    exact (dedupe_chain s3 false).1
  rw [trimmer_chain s4 h4a h4c]
  cases s4 with
  | nil => simp [noHyphenPair]
  | cons c s4 =>
    simp only [List.head?_cons, Option.some.injEq, List.tail_cons]
    by_cases hc : c = 0x2D
    · rw [if_pos hc]
      subst hc
      unfold noHyphenPair at h4c
      rw [List.chain'_cons'] at h4c
      refine ⟨fun b hb => h4 b (List.mem_cons_of_mem _ hb), h4c.2, ?_⟩
      intro h
      exact h4c.1 _ h ⟨rfl, rfl⟩
    · rw [if_neg hc]
      exact ⟨h4, h4c, by simpa using hc⟩

/-- With a case table that maps no rune to an upper-case ASCII letter, every
character of a slug is one of `a-z`, `0-9`, `_`, `.`, `-`. -/
theorem escapedTitle_slugChar (toLowerCase : Nat → Nat)
    (htbl : ∀ r, 0x7F < r → isUpperASCII (toLowerCase r) = false) (title : GoString) (b : Nat)
    (hb : b ∈ escapedTitle toLowerCase title) : slugChar b = true := by
  obtain ⟨h1, h2⟩ := (escapedTitle_shape toLowerCase title).1 b hb
  apply slugChar_of_allowed b h1
  rcases h2 with h | h
  · subst h; decide
  · exact toLower_not_upper toLowerCase htbl title b h

theorem toValidLoop_ascii (repl : GoString) (invalid : Bool) (s : GoString)
    (hs : ∀ c ∈ s, c < 0x80) :
    toValidLoop repl invalid (s.map (fun c => (c, [c]))) = s := by
  induction s generalizing invalid with
  | nil => rfl
  | cons c s ih =>
    have hc := hs c (List.mem_cons_self c s)
    have hi : isInvalidByte (c, [c]) = false := by
      simp only [isInvalidByte, utf8.RuneError, Bool.and_eq_false_iff, beq_eq_false_iff_ne]
      left; omega
    simp only [List.map_cons, toValidLoop, hi, Bool.false_eq_true, if_false,
      List.singleton_append]
    rw [ih false (fun d hd => hs d (List.mem_cons_of_mem c hd))]

theorem replaceRuns_keep_all (cls : Nat → Bool) (repl : GoString) (inMatch : Bool)
    (s : GoString) (hs : ∀ c ∈ s, cls c = false) :
    replaceRuns cls repl inMatch (s.map (fun c => (c, [c]))) = s := by
  induction s generalizing inMatch with
  | nil => rfl
  | cons c s ih =>
    simp only [List.map_cons, replaceRuns, hs c (List.mem_cons_self c s), Bool.false_eq_true,
      if_false, List.singleton_append]
    rw [ih false (fun d hd => hs d (List.mem_cons_of_mem c hd))]

/-- A string of slug characters without two hyphens side by side and without a
hyphen in front is its own slug. -/
theorem escapedTitle_fixed (toLowerCase : Nat → Nat) (x : GoString)
    (h1 : ∀ b ∈ x, slugChar b = true) (h2 : noHyphenPair x) (h3 : x.head? ≠ some 0x2D) :
    escapedTitle toLowerCase x = x := by
  have ha : ∀ c ∈ x, c < 0x80 := fun c hc => slugChar_lt c (h1 c hc)
  have e1 : strings.ToLower toLowerCase x = x := by
    unfold strings.ToLower
    rw [if_pos (by simpa [utf8.RuneSelf] using ha), if_neg]
    simp only [List.any_eq_true, not_exists, not_and, Bool.not_eq_true]
    exact fun c hc => not_upper_of_slugChar c (h1 c hc)
  have e2 : strings.ToValidUTF8 x [] = x := by
    unfold strings.ToValidUTF8
    rw [rangeString_ascii x ha, toValidLoop_ascii [] false x ha]
  have e3 : disallowedSlugChars.ReplaceAllLiteralString x [0x2D] = x := by
    rw [disallowed_eq]
    rw [rangeString_ascii x ha,
      replaceRuns_keep_all _ _ _ x (fun c hc => allowed_of_slugChar c (h1 c hc))]
  have e4 : slugReplacementDeduper.ReplaceAllLiteralString x [0x2D] = x := by
    rw [deduper_eq]
    rw [rangeString_ascii x ha, dedupe_id x false h2 (by simp)]
  simp only [escapedTitle, str_hyphen, str_empty, e1, e2, e3, e4]
  rw [trimmer_chain x ha h2, if_neg h3]

/-! ## Strings put together from parts -/

theorem unicode_toLower_slugChar (toLowerCase : Nat → Nat) (c : Nat) (h : slugChar c = true) :
    unicode.ToLower toLowerCase c = c := by
  have h1 := slugChar_lt c h
  have h2 := not_upper_of_slugChar c h
  unfold unicode.ToLower unicode.MaxASCII
  rw [if_pos (by omega), if_neg (by simp [h2])]

theorem flatMap_slug (toLowerCase : Nat → Nat) (p : GoString)
    (hp : ∀ c ∈ p, slugChar c = true) :
    (p.map (fun c => (c, [c]))).flatMap
      (fun u : Nat × GoString => utf8.AppendRune (unicode.ToLower toLowerCase u.1)) = p := by
  induction p with
  | nil => rfl
  | cons c p ih =>
    have hc := hp c (List.mem_cons_self c p)
    simp only [List.map_cons, List.flatMap_cons]
    rw [ih (fun d hd => hp d (List.mem_cons_of_mem c hd)), unicode_toLower_slugChar _ c hc,
      appendRune_lt c (slugChar_lt c hc)]
    rfl

/-- Lower-casing leaves a leading part made of slug characters as it is. -/
theorem toLower_slug_append (toLowerCase : Nat → Nat) (p t : GoString)
    (hp : ∀ c ∈ p, slugChar c = true) :
    strings.ToLower toLowerCase (p ++ t) = p ++ strings.ToLower toLowerCase t := by
  rw [toLower_eq_map, toLower_eq_map, map_eq_flatMap, map_eq_flatMap,
    rangeString_ascii_append p t (fun c hc => slugChar_lt c (hp c hc)), List.flatMap_append,
    flatMap_slug toLowerCase p hp]

theorem toValidLoop_ascii_append (repl : GoString) (invalid : Bool) (p : GoString)
    (us : List (Nat × GoString)) (hp : ∀ c ∈ p, c < 0x80) (hne : p ≠ []) :
    toValidLoop repl invalid (p.map (fun c => (c, [c])) ++ us)
      = p ++ toValidLoop repl false us := by
  induction p generalizing invalid with
  | nil => exact absurd rfl hne
  | cons c p ih =>
    have hc := hp c (List.mem_cons_self c p)
    have hi : isInvalidByte (c, [c]) = false := by
      simp only [isInvalidByte, utf8.RuneError, Bool.and_eq_false_iff, beq_eq_false_iff_ne]
      left; omega
    simp only [List.map_cons, List.cons_append, toValidLoop, hi, Bool.false_eq_true, if_false,
      List.singleton_append]
    cases p with
    | nil => rfl
    | cons d p =>
      have h := ih false (fun e he => hp e (List.mem_cons_of_mem c he)) (by simp)
      simp only [List.nil_append, List.append_eq]
      rw [h]

theorem replaceRuns_keep_append (cls : Nat → Bool) (repl : GoString) (inMatch : Bool)
    (p : GoString) (us : List (Nat × GoString)) (hp : ∀ c ∈ p, cls c = false) (hne : p ≠ []) :
    replaceRuns cls repl inMatch (p.map (fun c => (c, [c])) ++ us)
      = p ++ replaceRuns cls repl false us := by
  induction p generalizing inMatch with
  | nil => exact absurd rfl hne
  | cons c p ih =>
    simp only [List.map_cons, List.cons_append, replaceRuns, hp c (List.mem_cons_self c p),
      Bool.false_eq_true, if_false, List.singleton_append]
    cases p with
    | nil => rfl
    | cons d p =>
      have h := ih false (fun e he => hp e (List.mem_cons_of_mem c he)) (by simp)
      simp only [List.nil_append, List.append_eq]
      rw [h]

/-- Deduping keeps a leading part that has no two hyphens side by side. -/
theorem dedupe_keeps (p : GoString) (us : List (Nat × GoString)) (inMatch : Bool)
    (hp : noHyphenPair p) (hh : inMatch = true → p.head? ≠ some 0x2D) :
    ∃ q, replaceRuns isHyphen [0x2D] inMatch (p.map (fun c => (c, [c])) ++ us) = p ++ q := by
  induction p generalizing inMatch with
  | nil => exact ⟨_, rfl⟩
  | cons c p ih =>
    unfold noHyphenPair at hp
    rw [List.chain'_cons'] at hp
    simp only [List.map_cons, List.cons_append, replaceRuns]
    by_cases hc : c = 0x2D
    · subst hc
      have hin : inMatch = false := by
        cases inMatch
        · rfl
        · exact absurd rfl (hh rfl)
      subst hin
      obtain ⟨q, hq⟩ := ih true hp.2 (fun _ h => hp.1 _ h ⟨rfl, rfl⟩)
      exact ⟨q, by simp [isHyphen, hq]⟩
    · obtain ⟨q, hq⟩ := ih false hp.2 (by simp)
      exact ⟨q, by simp [isHyphen, hc, hq]⟩

/-- A well-formed leading part survives slugification. -/
theorem escapedTitle_keeps (toLowerCase : Nat → Nat) (p t : GoString) (hne : p ≠ [])
    (hp : ∀ c ∈ p, slugChar c = true) (hh : p.head? ≠ some 0x2D) (hc : noHyphenPair p) :
    ∃ q, escapedTitle toLowerCase (p ++ t) = p ++ q := by
  have hpa : ∀ c ∈ p, c < 0x80 := fun c h => slugChar_lt c (hp c h)
  have hshape := escapedTitle_shape toLowerCase (p ++ t)
  simp only [escapedTitle, str_hyphen, str_empty] at hshape ⊢
  rw [toLower_slug_append toLowerCase p t hp] at hshape ⊢
  generalize strings.ToLower toLowerCase t = t1 at hshape ⊢
  have e2 : strings.ToValidUTF8 (p ++ t1) [] = p ++ strings.ToValidUTF8 t1 [] := by
    unfold strings.ToValidUTF8
    rw [rangeString_ascii_append p t1 hpa, toValidLoop_ascii_append _ _ p _ hpa hne]
  rw [e2] at hshape ⊢
  generalize strings.ToValidUTF8 t1 [] = t2 at hshape ⊢
  have e3 : disallowedSlugChars.ReplaceAllLiteralString (p ++ t2) [0x2D]
      = p ++ disallowedSlugChars.ReplaceAllLiteralString t2 [0x2D] := by
    rw [disallowed_eq, disallowed_eq, rangeString_ascii_append p t2 hpa,
      replaceRuns_keep_append _ _ _ p _ (fun c h => allowed_of_slugChar c (hp c h)) hne]
  rw [e3] at hshape ⊢
  have h3a : ∀ b ∈ disallowedSlugChars.ReplaceAllLiteralString t2 [0x2D], b < 0x80 :=
    fun b hb => allowed_lt b (disallowed_replace_mem t2 b hb).1
  generalize disallowedSlugChars.ReplaceAllLiteralString t2 [0x2D] = t3 at hshape h3a ⊢
  have e4 : ∃ q, slugReplacementDeduper.ReplaceAllLiteralString (p ++ t3) [0x2D] = p ++ q := by
    rw [deduper_eq]
    rw [rangeString_ascii_append p t3 hpa]
    exact dedupe_keeps p _ false hc (by simp)
  obtain ⟨q, hq⟩ := e4
  have h4a : ∀ b ∈ slugReplacementDeduper.ReplaceAllLiteralString (p ++ t3) [0x2D],
      b < 0x80 := by
    intro b hb
    rcases deduper_replace_mem _ b hb with h | h
    · omega
    · rcases List.mem_append.1 h with h | h
      · exact hpa b h
      · exact h3a b h
  have h4c : noHyphenPair (slugReplacementDeduper.ReplaceAllLiteralString (p ++ t3) [0x2D]) := by
    rw [deduper_eq]
    rw [rangeString_ascii (p ++ t3) (fun b hb => by
      rcases List.mem_append.1 hb with h | h
      · exact hpa b h
      · exact h3a b h)]
    exact (dedupe_chain (p ++ t3) false).1
  rw [trimmer_chain _ h4a h4c, hq, if_neg]
  · exact ⟨q, rfl⟩
  · cases p with
    | nil => exact absurd rfl hne
    | cons c p => simpa using hh

/-! ## Decoding in front of an ASCII byte -/

theorem decode_width_le (s : GoString) : (utf8.DecodeRuneInString s).2 ≤ s.length := by
  unfold utf8.DecodeRuneInString
  split
  · simp
  · split_ifs <;> (try split) <;> (try split_ifs) <;> simp

theorem isCont_lt (b : Nat) (h : b < 0x80) : utf8.isCont b = false := by
  simp only [utf8.isCont, Bool.and_eq_false_iff, decide_eq_false_iff_not]
  omega

theorem acceptLo_ge (s0 : Nat) : 0x80 ≤ utf8.acceptLo s0 := by
  unfold utf8.acceptLo
  split_ifs <;> omega

/-- Decoding does not look past the end of a string into an ASCII byte that
follows. -/
theorem decode_append_ascii (x b : GoString) (hx : x ≠ []) (hb : ∀ b0 ∈ b.head?, b0 < 0x80) :
    utf8.DecodeRuneInString (x ++ b) = utf8.DecodeRuneInString x := by
  cases b with
  | nil => rw [List.append_nil]
  | cons b0 b =>
    have hb0 : b0 < 0x80 := hb b0 rfl
    have hc := isCont_lt b0 hb0
    have hl : ∀ s0, ¬ utf8.acceptLo s0 ≤ b0 := fun s0 => by have := acceptLo_ge s0; omega
    match x, hx with
    | [x0], _ =>
      rcases b with _ | ⟨b1, _ | ⟨b2, b⟩⟩ <;>
        simp only [List.cons_append, List.nil_append, utf8.DecodeRuneInString, hc, hl x0,
          Bool.false_eq_true, false_and, and_false, if_false]
    | [x0, x1], _ =>
      rcases b with _ | ⟨b1, b⟩ <;>
        simp only [List.cons_append, List.nil_append, utf8.DecodeRuneInString, hc,
          Bool.false_eq_true, false_and, and_false, if_false]
    | [x0, x1, x2], _ =>
      simp only [List.cons_append, List.nil_append, utf8.DecodeRuneInString, hc,
        Bool.false_eq_true, false_and, and_false, if_false]
    | x0 :: x1 :: x2 :: x3 :: xs, _ =>
      simp only [List.cons_append, utf8.DecodeRuneInString]

theorem rangeFrom_append_ascii (x b : GoString) (k : Nat) (hk : k ≤ x.length)
    (hb : ∀ b0 ∈ b.head?, b0 < 0x80) :
    rangeFrom k (x ++ b) = rangeFrom k x ++ rangeString b := by
  induction x generalizing k with
  | nil =>
    have : k = 0 := by simpa using hk
    subst this
    rfl
  | cons c x ih =>
    cases k with
    | succ k =>
      simp only [List.cons_append, rangeFrom]
      exact ih k (by simpa using hk)
    | zero =>
      have hd := decode_append_ascii (c :: x) b (by simp) hb
      have hw := decode_width_le (c :: x)
      have hp := decode_width_pos c x
      have ht : (c :: (x ++ b)).take (utf8.DecodeRuneInString (c :: x)).2
          = (c :: x).take (utf8.DecodeRuneInString (c :: x)).2 := by
        rw [← List.cons_append, List.take_append_of_le_length hw]
      rw [List.cons_append] at hd
      show rangeFrom 0 (c :: (x ++ b)) = rangeFrom 0 (c :: x) ++ rangeString b
      rw [rangeFrom, rangeFrom, hd, ht,
        ih _ (by simp only [List.length_cons] at hw; omega)]
      rfl

/-- The runes of a string followed by ASCII text are those of the string, then
those of the text. -/
theorem rangeString_append_ascii (x b : GoString) (hb : ∀ c ∈ b, c < 0x80) :
    rangeString (x ++ b) = rangeString x ++ b.map (fun c => (c, [c])) := by
  rw [← rangeString_ascii b hb]
  exact rangeFrom_append_ascii x b 0 (Nat.zero_le _)
    (fun b0 h0 => hb b0 (List.mem_of_mem_head? h0))

theorem rangeString_ne_nil (x : GoString) (hx : x ≠ []) : rangeString x ≠ [] := by
  cases x with
  | nil => exact absurd rfl hx
  | cons c x => simp [rangeString, rangeFrom]

theorem rangeString_flatMap_appendRune (cs : List Nat) (rest : GoString) :
    rangeString (cs.flatMap utf8.AppendRune ++ rest)
      = cs.map (fun c => (utf8.validRune c, utf8.AppendRune c)) ++ rangeString rest := by
  induction cs with
  | nil => rfl
  | cons c cs ih =>
    rw [List.flatMap_cons, List.append_assoc, rangeString_append_rune, ih]
    rfl

theorem not_invalid_encoded (c : Nat) :
    isInvalidByte (utf8.validRune c, utf8.AppendRune c) = false := by
  simp only [isInvalidByte, Bool.and_eq_false_iff, beq_eq_false_iff_ne, ne_eq]
  unfold utf8.validRune utf8.AppendRune utf8.RuneError utf8.MaxRune
  by_cases h1 : c ≤ 0x7F
  · left
    rw [if_neg (by omega)]
    omega
  · right
    rw [if_neg h1]
    split_ifs <;> simp

theorem disallowed_validRune (c : Nat) (h : disallowedSlugChar c = true) :
    disallowedSlugChar (utf8.validRune c) = true := by
  unfold utf8.validRune
  split_ifs
  · decide
  · exact h

theorem toValidLoop_valid (repl : GoString) (invalid : Bool) (us : List (Nat × GoString))
    (vs : List (Nat × GoString)) (hus : ∀ u ∈ us, isInvalidByte u = false) (hne : us ≠ []) :
    toValidLoop repl invalid (us ++ vs)
      = us.flatMap (fun u => u.2) ++ toValidLoop repl false vs := by
  induction us generalizing invalid with
  | nil => exact absurd rfl hne
  | cons u us ih =>
    simp only [List.cons_append, toValidLoop, hus u (List.mem_cons_self u us),
      Bool.false_eq_true, if_false, List.flatMap_cons, List.append_assoc]
    cases us with
    | nil => rfl
    | cons v us =>
      have h := ih false (fun e he => hus e (List.mem_cons_of_mem u he)) (by simp)
      simp only [List.append_eq]
      rw [h]

theorem replaceRuns_run_append (cls : Nat → Bool) (repl : GoString) (inMatch : Bool)
    (us vs : List (Nat × GoString)) (hus : ∀ u ∈ us, cls u.1 = true) (hne : us ≠ []) :
    replaceRuns cls repl inMatch (us ++ vs)
      = (if inMatch then [] else repl) ++ replaceRuns cls repl true vs := by
  induction us generalizing inMatch with
  | nil => exact absurd rfl hne
  | cons u us ih =>
    simp only [List.cons_append, replaceRuns, hus u (List.mem_cons_self u us), if_true]
    cases us with
    | nil => rfl
    | cons v us =>
      have h := ih true (fun e he => hus e (List.mem_cons_of_mem u he)) (by simp)
      simp only [List.append_eq]
      rw [h]
      simp

theorem noHyphenPair_of_no_hyphen (b : GoString) (hb : ∀ c ∈ b, c ≠ 0x2D) : noHyphenPair b := by
  unfold noHyphenPair
  induction b with
  | nil => exact List.chain'_nil
  | cons c b ih =>
    rw [List.chain'_cons']
    exact ⟨fun _ _ h => hb c (List.mem_cons_self c b) h.1,
      ih (fun d hd => hb d (List.mem_cons_of_mem c hd))⟩

theorem noHyphenPair_join (a b : GoString) (ha : ∀ c ∈ a, c ≠ 0x2D) (hb : ∀ c ∈ b, c ≠ 0x2D) :
    noHyphenPair (a ++ 0x2D :: b) := by
  induction a with
  | nil =>
    unfold noHyphenPair
    rw [List.nil_append, List.chain'_cons']
    exact ⟨fun y hy h => hb y (List.mem_of_mem_head? hy) h.2, noHyphenPair_of_no_hyphen b hb⟩
  | cons c a ih =>
    have := ih (fun d hd => ha d (List.mem_cons_of_mem c hd))
    unfold noHyphenPair at this ⊢
    rw [List.cons_append, List.chain'_cons']
    exact ⟨fun _ _ h => ha c (List.mem_cons_self c a) h.1, this⟩



/-- A run of characters whose lower case is disallowed, between two parts made
of `a-z`, `0-9`, `_` and `.`, becomes one hyphen. -/
theorem escapedTitle_run (toLowerCase : Nat → Nat) (a r b : GoString)
    (ha : ∀ c ∈ a, slugChar c = true ∧ c ≠ 0x2D) (hane : a ≠ [])
    (hb : ∀ c ∈ b, slugChar c = true ∧ c ≠ 0x2D)
    (hr : ∀ u ∈ rangeString r, disallowedSlugChar (unicode.ToLower toLowerCase u.1) = true)
    (hrne : r ≠ []) :
    escapedTitle toLowerCase (a ++ r ++ b) = a ++ [0x2D] ++ b := by
  have haa : ∀ c ∈ a, c < 0x80 := fun c h => slugChar_lt c (ha c h).1
  have hba : ∀ c ∈ b, c < 0x80 := fun c h => slugChar_lt c (hb c h).1
  -- the lower-cased title
  let cs := (rangeString r).map (fun u => unicode.ToLower toLowerCase u.1)
  have hcs : ∀ c ∈ cs, disallowedSlugChar c = true := by
    intro c hc
    obtain ⟨u, hu, rfl⟩ := List.mem_map.1 hc
    exact hr u hu
  have hcsne : cs ≠ [] := by
    simpa [cs] using rangeString_ne_nil r hrne
  have e1 : strings.ToLower toLowerCase (a ++ r ++ b) = a ++ (cs.flatMap utf8.AppendRune ++ b) := by
    rw [toLower_eq_map, map_eq_flatMap, List.append_assoc, rangeString_ascii_append a _ haa, rangeString_append_ascii r b hba,
      List.flatMap_append, List.flatMap_append, flatMap_slug toLowerCase a (fun c h => (ha c h).1),
      flatMap_slug toLowerCase b (fun c h => (hb c h).1)]
    simp only [cs, List.flatMap_map]
  have e0 : rangeString (a ++ (cs.flatMap utf8.AppendRune ++ b))
      = a.map (fun c => (c, [c])) ++
        (cs.map (fun c => (utf8.validRune c, utf8.AppendRune c)) ++ b.map (fun c => (c, [c]))) := by
    rw [rangeString_ascii_append a _ haa, rangeString_flatMap_appendRune, rangeString_ascii b hba]
  have e2 : strings.ToValidUTF8 (a ++ (cs.flatMap utf8.AppendRune ++ b)) []
      = a ++ (cs.flatMap utf8.AppendRune ++ b) := by
    unfold strings.ToValidUTF8
    rw [e0, toValidLoop_ascii_append _ _ a _ haa hane,
      toValidLoop_valid _ _ _ _ (by
        intro u hu
        obtain ⟨c, _, rfl⟩ := List.mem_map.1 hu
        exact not_invalid_encoded c) (by simpa using hcsne),
      toValidLoop_ascii _ _ b hba]
    simp only [List.flatMap_map]
  have e3 : disallowedSlugChars.ReplaceAllLiteralString (a ++ (cs.flatMap utf8.AppendRune ++ b))
      [0x2D] = a ++ [0x2D] ++ b := by
    rw [disallowed_eq]
    rw [e0, replaceRuns_keep_append _ _ _ a _ (fun c h => allowed_of_slugChar c (ha c h).1) hane,
      replaceRuns_run_append _ _ _ _ _ (by
        intro u hu
        obtain ⟨c, hc, rfl⟩ := List.mem_map.1 hu
        exact disallowed_validRune c (hcs c hc)) (by simpa using hcsne),
      replaceRuns_keep_all _ _ _ b (fun c h => allowed_of_slugChar c (hb c h).1)]
    simp
  have h3a : ∀ c ∈ a ++ [0x2D] ++ b, c < 0x80 := by
    intro c hc
    simp only [List.mem_append, List.mem_singleton] at hc
    rcases hc with (h | h) | h
    · exact haa c h
    · omega
    · exact hba c h
  have h3c : noHyphenPair (a ++ [0x2D] ++ b) := by
    rw [List.append_assoc]
    exact noHyphenPair_join a b (fun c h => (ha c h).2) (fun c h => (hb c h).2)
  have e4 : slugReplacementDeduper.ReplaceAllLiteralString (a ++ [0x2D] ++ b) [0x2D]
      = a ++ [0x2D] ++ b := by
    rw [deduper_eq]
    rw [rangeString_ascii _ h3a, dedupe_id _ false h3c (by simp)]
  simp only [escapedTitle, str_hyphen, str_empty, e1, e2, e3, e4]
  rw [trimmer_chain _ h3a h3c, if_neg]
  cases a with
  | nil => exact absurd rfl hane
  | cons c a =>
    simp only [List.cons_append, List.head?_cons, Option.some.injEq]
    exact (ha c (List.mem_cons_self c a)).2

/-! ## Dates and paths -/

theorem decimalLoop_mem (fuel n : Nat) (acc : GoString) (b : Nat)
    (hb : b ∈ decimalLoop fuel n acc) : (0x30 ≤ b ∧ b ≤ 0x39) ∨ b ∈ acc := by
  induction fuel generalizing n acc with
  | zero => exact Or.inr hb
  | succ fuel ih =>
    simp only [decimalLoop] at hb
    split_ifs at hb
    · rcases List.mem_cons.1 hb with h | h
      · left; omega
      · exact Or.inr h
    · rcases ih _ _ hb with h | h
      · exact Or.inl h
      · rcases List.mem_cons.1 h with h | h
        · left; omega
        · exact Or.inr h

theorem appendInt_mem (x : Int) (width b : Nat) (hb : b ∈ time.appendInt x width) :
    (0x30 ≤ b ∧ b ≤ 0x39) ∨ b = 0x2D := by
  simp only [time.appendInt, List.mem_append, List.mem_replicate] at hb
  rcases hb with (h | h) | h
  · split_ifs at h
    · right; simpa using h
    · simp at h
  · left; omega
  · rcases decimalLoop_mem _ _ _ b h with h | h
    · exact Or.inl h
    · simp at h

/-- A date in the layout `2006-01-02` is made of digits and hyphens. -/
theorem format_mem (t : Time) (b : Nat) (hb : b ∈ t.Format20060102) :
    (0x30 ≤ b ∧ b ≤ 0x39) ∨ b = 0x2D := by
  simp only [Time.Format20060102, List.mem_append, List.mem_singleton] at hb
  rcases hb with (((h | h) | h) | h) | h
  · exact appendInt_mem _ _ b h
  · exact Or.inr h
  · exact appendInt_mem _ _ b h
  · exact Or.inr h
  · exact appendInt_mem _ _ b h

theorem format_ne_nil (t : Time) : t.Format20060102 ≠ [] := by
  simp [Time.Format20060102]

/-- Joining two plain names puts one separator between them. -/
theorem join_two (d f : GoString) (hd : d ≠ []) (hf : f ≠ [])
    (hds : filepath.Separator ∉ d) (hfs : filepath.Separator ∉ f)
    (hd1 : d ≠ str ".") (hd2 : d ≠ str "..") (hf1 : f ≠ str ".") (hf2 : f ≠ str "..") :
    filepath.Join [d, f] = d ++ [filepath.Separator] ++ f := by
  unfold filepath.Join
  rw [List.dropWhile_cons_of_neg (by simpa using hd)]
  have hi : [filepath.Separator].intercalate [d, f] = d ++ [filepath.Separator] ++ f := by
    simp [List.intercalate]
  have hsplit : (d ++ [filepath.Separator] ++ f).splitOn filepath.Separator = [d, f] := by
    rw [← hi]
    apply List.splitOn_intercalate
    · intro l hl
      simp only [List.mem_cons, List.mem_singleton, List.not_mem_nil, or_false] at hl
      rcases hl with rfl | rfl
      · exact hds
      · exact hfs
    · simp
  have hroot : ¬ ((d ++ [filepath.Separator] ++ f).head? = some filepath.Separator) := by
    cases d with
    | nil => exact absurd rfl hd
    | cons c d =>
      simp only [List.cons_append, List.head?_cons, Option.some.injEq]
      intro h
      exact hds (by rw [h]; exact List.mem_cons_self _ _)
  simp only [hi]
  unfold filepath.Clean filepath.cleanElems
  simp only [hsplit, hroot, decide_False, if_false, List.foldl_cons, List.foldl_nil,
    List.nil_append]
  have s1 : cleanStep false [] d = [d] := by
    simp [cleanStep, hd, hd1, hd2]
  have s2 : cleanStep false [d] f = [d, f] := by
    simp [cleanStep, hf, hf1, hf2]
  rw [s1, s2, hi, if_neg]
  cases d with
  | nil => exact absurd rfl hd
  | cons c d => simp

theorem splitOn_append_sep (a n : GoString) (hn : filepath.Separator ∉ n) :
    (a ++ filepath.Separator :: n).splitOn filepath.Separator
      = a.splitOn filepath.Separator ++ [n] := by
  have hsingle : n.splitOnP (· == filepath.Separator) = [n] :=
    List.splitOnP_eq_single _ _ (fun x hx h => hn (by simpa using (beq_iff_eq.1 h) ▸ hx))
  simp only [List.splitOn]
  induction a with
  | nil => simp [List.splitOnP_cons, hsingle]
  | cons x a ih =>
    rw [List.cons_append, List.splitOnP_cons, List.splitOnP_cons, ih]
    split_ifs
    · rfl
    · cases h : List.splitOnP (· == filepath.Separator) a with
      | nil => exact absurd h (List.splitOnP_ne_nil _ _)
      | cons y ys => rfl

/-- Joining a directory and a plain name: the elements of the cleaned directory,
then the name. -/
theorem join_name (dir n : GoString) (hne : n ≠ []) (hsep : filepath.Separator ∉ n)
    (h1 : n ≠ str ".") (h2 : n ≠ str "..") :
    filepath.Join [dir, n]
      = (if dir.head? = some filepath.Separator then [filepath.Separator] else [])
        ++ [filepath.Separator].intercalate (filepath.cleanElems dir ++ [n]) := by
  have hstep : ∀ (rooted : Bool) (out : List GoString), cleanStep rooted out n = out ++ [n] := by
    intro rooted out
    simp [cleanStep, hne, h1, h2]
  have hnonempty : ∀ (root : GoString) (out : List GoString),
      root ++ [filepath.Separator].intercalate (out ++ [n]) ≠ [] := by
    intro root out h
    have h3 := (List.append_eq_nil.1 h).2
    cases out with
    | nil =>
      simp [List.intercalate] at h3
      exact hne h3
    | cons e out =>
      obtain ⟨b, l2, hbl⟩ : ∃ b l2, out ++ [n] = b :: l2 := by
        cases out with
        | nil => exact ⟨n, [], rfl⟩
        | cons b l2 => exact ⟨b, l2 ++ [n], rfl⟩
      rw [List.cons_append, hbl] at h3
      simp [List.intercalate] at h3
  have hsingle : [filepath.Separator].intercalate [n] = n := by
    simp [List.intercalate]
  have hcn : filepath.cleanElems n = [n] := by
    have hsplit : n.splitOn filepath.Separator = [n] :=
      List.splitOnP_eq_single _ _ (fun x hx h => hsep (by simpa using (beq_iff_eq.1 h) ▸ hx))
    simp only [filepath.cleanElems, hsplit, List.foldl_cons, List.foldl_nil, hstep,
      List.nil_append]
  have hroot : ¬ (n.head? = some filepath.Separator) := by
    intro h
    exact hsep (List.mem_of_mem_head? h)
  unfold filepath.Join
  by_cases hd : dir = []
  · subst hd
    have hce : filepath.cleanElems [] = [] := by decide
    rw [List.dropWhile_cons_of_pos (by simp), List.dropWhile_cons_of_neg (by simpa using hne)]
    simp only [hsingle, filepath.Clean, hcn, hroot, if_false, List.nil_append, hce,
      List.head?_nil, reduceCtorEq]
    rw [if_neg hne]
  · rw [List.dropWhile_cons_of_neg (by simpa using hd)]
    have hi : [filepath.Separator].intercalate [dir, n] = dir ++ filepath.Separator :: n := by
      simp [List.intercalate]
    have hhead : (dir ++ filepath.Separator :: n).head? = dir.head? := by
      cases dir with
      | nil => exact absurd rfl hd
      | cons c cs => rfl
    have hce : filepath.cleanElems (dir ++ filepath.Separator :: n)
        = filepath.cleanElems dir ++ [n] := by
      simp only [filepath.cleanElems, hhead, splitOn_append_sep dir n hsep, List.foldl_append,
        List.foldl_cons, List.foldl_nil, hstep]
    simp only [hi, filepath.Clean, hhead, hce]
    rw [if_neg (hnonempty _ _)]

/-! ## Properties of the generator -/

theorem caseRangesExcerpt_not_upper (r : Nat) (h : 0x7F < r) :
    isUpperASCII (caseRangesExcerpt r) = false := by
  unfold caseRangesExcerpt
  split_ifs with h1 h2
  · decide
  · decide
  · simp only [isUpperASCII, Bool.and_eq_false_iff, decide_eq_false_iff_not]
    omega

theorem filename_ungrouped (toLowerCase : Nat → Nat) (title : GoString) (date : Time)
    (config : Markdown) :
    generateArticleFilename toLowerCase title date { config with GroupByMonth := false }
      = escapedTitle toLowerCase title ++ str ".md" := by
  simp [generateArticleFilename]

/-- C1, at a failing input. The title `Hello, World!` gets the file name
`hello-world-.md`: the slug keeps its trailing hyphen. The deduped text
`hello-world-` ends in one hyphen, and the second alternative of
`slugReplacementTrimmer`, `-+-$`, needs two. -/
theorem trailing_hyphen_kept :
    generateArticleFilename caseRangesExcerpt (str "Hello, World!") exampleDate exampleConfig
      = str "hello-world-.md" ∧
    slugReplacementTrimmer.ReplaceAllLiteralString (str "hello-world-") (str "")
      = str "hello-world-" ∧
    slugReplacementTrimmer.ReplaceAllLiteralString (str "hello-world--") (str "")
      = str "hello-world" := by
  decide

/-- C2. Slugification is idempotent: the slug of a slug is that slug, for every
title. The case table of the Go distribution is a parameter; it is assumed to
map no rune above ASCII to an upper-case ASCII letter. -/
theorem escapedTitle_idempotent (toLowerCase : Nat → Nat)
    (htbl : ∀ r, 0x7F < r → isUpperASCII (toLowerCase r) = false) (title : GoString) :
    escapedTitle toLowerCase (escapedTitle toLowerCase title)
      = escapedTitle toLowerCase title := by
  obtain ⟨_, h2, h3⟩ := escapedTitle_shape toLowerCase title
  exact escapedTitle_fixed toLowerCase _
    (fun b hb => escapedTitle_slugChar toLowerCase htbl title b hb) h2 h3

theorem escapedTitle_idempotent_witness :
    (∀ r, 0x7F < r → isUpperASCII (caseRangesExcerpt r) = false) ∧
    escapedTitle caseRangesExcerpt (escapedTitle caseRangesExcerpt (str "--Hello, World!"))
      = escapedTitle caseRangesExcerpt (str "--Hello, World!") :=
  ⟨caseRangesExcerpt_not_upper,
    escapedTitle_idempotent caseRangesExcerpt caseRangesExcerpt_not_upper (str "--Hello, World!")⟩

/-- C3. With `GroupByMonth` disabled the file name is `s ++ ".md"` where every
character of `s` is one of `a-z`, `0-9`, `_`, `.`, `-`, for every title and
date. The case table of the Go distribution is a parameter; it is assumed to
map no rune above ASCII to an upper-case ASCII letter. -/
theorem generateArticleFilename_safe (toLowerCase : Nat → Nat)
    (htbl : ∀ r, 0x7F < r → isUpperASCII (toLowerCase r) = false) (title : GoString)
    (date : Time) (config : Markdown) :
    ∃ s, generateArticleFilename toLowerCase title date { config with GroupByMonth := false }
        = s ++ str ".md" ∧
      ∀ c ∈ s, (0x61 ≤ c ∧ c ≤ 0x7A) ∨ (0x30 ≤ c ∧ c ≤ 0x39) ∨ c = 0x5F ∨ c = 0x2E
        ∨ c = 0x2D := by
  refine ⟨escapedTitle toLowerCase title, filename_ungrouped _ _ _ _, fun c hc => ?_⟩
  have h := escapedTitle_slugChar toLowerCase htbl title c hc
  simpa [slugChar, or_assoc] using h

theorem generateArticleFilename_safe_witness :
    (∀ r, 0x7F < r → isUpperASCII (caseRangesExcerpt r) = false) ∧
    ∃ s, generateArticleFilename caseRangesExcerpt (str "Ünïcode / Títle?") exampleDate
        { exampleConfig with GroupByMonth := false } = s ++ str ".md" ∧
      ∀ c ∈ s, (0x61 ≤ c ∧ c ≤ 0x7A) ∨ (0x30 ≤ c ∧ c ≤ 0x39) ∨ c = 0x5F ∨ c = 0x2E
        ∨ c = 0x2D :=
  ⟨caseRangesExcerpt_not_upper,
    generateArticleFilename_safe caseRangesExcerpt caseRangesExcerpt_not_upper
      (str "Ünïcode / Títle?") exampleDate exampleConfig⟩

/-- C4 as stated fails. The Kelvin sign U+212A (bytes `E2 84 AA`) is a character
outside `[A-Za-z0-9_.-]`, yet `strings.ToLower` turns it into `k` before the
disallowed characters are replaced: the title `a`, Kelvin sign, `b` gets the file
name `akb.md`, not `a-b.md`. -/
theorem disallowed_run_not_collapsed :
    (∀ u ∈ rangeString [0xE2, 0x84, 0xAA], disallowedSlugChar u.1 = true) ∧
    generateArticleFilename caseRangesExcerpt (str "a" ++ [0xE2, 0x84, 0xAA] ++ str "b")
      exampleDate exampleConfig = str "akb.md" ∧
    generateArticleFilename caseRangesExcerpt (str "a" ++ [0xE2, 0x84, 0xAA] ++ str "b")
      exampleDate exampleConfig ≠ str "a" ++ str "-" ++ str "b" ++ str ".md" := by
  decide

/-- C4, amended. For every non-empty `a` over `[a-z0-9_.]`, every `b` over
`[a-z0-9_.]` and every non-empty string `r` all of whose characters have a lower
case (`unicode.ToLower`) outside `[A-Za-z0-9_.-]`, the file name of
`a ++ r ++ b` with `GroupByMonth` disabled is `a ++ "-" ++ b ++ ".md"`, whatever
the length of `r`. An ill-formed byte of `r` counts as the character U+FFFD. -/
theorem disallowed_run_collapsed (toLowerCase : Nat → Nat) (a r b : GoString) (date : Time)
    (config : Markdown) (hane : a ≠ []) (hrne : r ≠ [])
    (ha : ∀ c ∈ a, slugChar c = true ∧ c ≠ 0x2D) (hb : ∀ c ∈ b, slugChar c = true ∧ c ≠ 0x2D)
    (hr : ∀ u ∈ rangeString r, disallowedSlugChar (unicode.ToLower toLowerCase u.1) = true) :
    generateArticleFilename toLowerCase (a ++ r ++ b) date { config with GroupByMonth := false }
      = a ++ str "-" ++ b ++ str ".md" := by
  rw [filename_ungrouped, escapedTitle_run toLowerCase a r b ha hane hb hr hrne, str_hyphen]

theorem disallowed_run_collapsed_witness :
    generateArticleFilename caseRangesExcerpt (str "a" ++ str "?! é" ++ str "b") exampleDate
        { exampleConfig with GroupByMonth := false }
      = str "a" ++ str "-" ++ str "b" ++ str ".md" :=
  disallowed_run_collapsed caseRangesExcerpt (str "a") (str "?! é") (str "b") exampleDate
    exampleConfig (by decide) (by decide) (by decide) (by decide) (by decide)

/-- C5. Date grouping only adds a directory: with `GroupByMonth` set the result
is the date in the layout `2006-01-02`, one path separator, and the result with
`GroupByMonth` disabled; and the result with `GroupByMonth` disabled does not
depend on the date. -/
theorem generateArticleFilename_grouped (toLowerCase : Nat → Nat) (t : GoString) (d : Time)
    (config : Markdown) :
    generateArticleFilename toLowerCase t d { config with GroupByMonth := true }
      = d.Format20060102 ++ [filepath.Separator]
        ++ generateArticleFilename toLowerCase t d { config with GroupByMonth := false } ∧
    ∀ d2 : Time,
      generateArticleFilename toLowerCase t d2 { config with GroupByMonth := false }
        = generateArticleFilename toLowerCase t d { config with GroupByMonth := false } := by
  refine ⟨?_, fun d2 => by rw [filename_ungrouped, filename_ungrouped]⟩
  rw [filename_ungrouped]
  simp only [generateArticleFilename, if_true]
  have hdm : ∀ b ∈ d.Format20060102, b ≠ 0x2F ∧ b ≠ 0x2E := by
    intro b hb
    rcases format_mem d b hb with h | h <;> omega
  have hfm : ∀ b ∈ escapedTitle toLowerCase t ++ str ".md", b ≠ 0x2F := by
    intro b hb
    rw [str_md] at hb
    rcases List.mem_append.1 hb with h | h
    · have := ((escapedTitle_shape toLowerCase t).1 b h).1
      intro hb2
      subst hb2
      exact absurd this (by decide)
    · simp only [List.mem_cons, List.mem_singleton, List.not_mem_nil, or_false] at h
      omega
  have hlen : 3 ≤ (escapedTitle toLowerCase t ++ str ".md").length := by
    rw [str_md]; simp
  apply join_two
  · exact format_ne_nil d
  · intro h; rw [h] at hlen; simp at hlen
  · exact fun h => (hdm _ h).1 rfl
  · exact fun h => hfm _ h rfl
  · intro h
    rw [str_dot] at h
    exact (hdm 0x2E (by rw [h]; simp)).2 rfl
  · intro h
    rw [str_dotdot] at h
    exact (hdm 0x2E (by rw [h]; simp)).2 rfl
  · intro h; rw [h] at hlen; revert hlen; decide
  · intro h; rw [h] at hlen; revert hlen; decide

/-- C9. With `GroupByMonth` disabled the file name never starts with a hyphen,
for every title and date. -/
theorem generateArticleFilename_no_leading_hyphen (toLowerCase : Nat → Nat) (title : GoString)
    (date : Time) (config : Markdown) :
    (generateArticleFilename toLowerCase title date
      { config with GroupByMonth := false }).head? ≠ some 0x2D := by
  rw [filename_ungrouped, str_md]
  have h := (escapedTitle_shape toLowerCase title).2.2
  cases hx : escapedTitle toLowerCase title with
  | nil => simp
  | cons c cs =>
    rw [hx] at h
    simpa using h

/-- C6 as stated fails. The image directory is the cleaned join of
`ImageSavePath` and the raw page name: for the title `../../outside` it is
`outside`, which is not inside `static/images`; for the title `CI/CD` it is
`static/images/CI/CD`, two components below; for an empty page name it is
`static/images` itself. -/
theorem ImgSavePath_not_confined :
    (generate.tm ⟨str "1", str "../../outside", exampleDate⟩ exampleConfig).ImgSavePath
      = str "outside" ∧
    (generate.tm ⟨str "1", str "CI/CD", exampleDate⟩ exampleConfig).ImgSavePath
      = str "static/images/CI/CD" ∧
    (generate.tm ⟨str "1", str "", exampleDate⟩ exampleConfig).ImgSavePath
      = str "static/images" := by
  decide

theorem tm_ImgSavePath (page : Page) (config : Markdown) :
    (generate.tm page config).ImgSavePath
      = filepath.Join [config.ImageSavePath, config.PageNamePrefix ++ page.Name] := by
  unfold generate.tm generate.pageName
  split_ifs <;> rfl

/-- C6, amended. For every `ImageSavePath`, and every page name
`PageNamePrefix ++ title` that is a single path component (not empty, without a
path separator, neither `.` nor `..`), `tm.ImgSavePath` is the path whose
elements are those of the cleaned `ImageSavePath` followed by exactly one
further element, the page name as it is (not its slug). -/
theorem ImgSavePath_single_component (page : Page) (config : Markdown)
    (hne : config.PageNamePrefix ++ page.Name ≠ [])
    (hsep : filepath.Separator ∉ config.PageNamePrefix ++ page.Name)
    (hdot : config.PageNamePrefix ++ page.Name ≠ str ".")
    (hdotdot : config.PageNamePrefix ++ page.Name ≠ str "..") :
    (generate.tm page config).ImgSavePath
      = (if config.ImageSavePath.head? = some filepath.Separator then [filepath.Separator]
          else [])
        ++ [filepath.Separator].intercalate
          (filepath.cleanElems config.ImageSavePath ++ [config.PageNamePrefix ++ page.Name]) := by
  rw [tm_ImgSavePath]
  exact join_name _ _ hne hsep hdot hdotdot

theorem ImgSavePath_single_component_witness :
    (generate.tm ⟨str "1", str "Hello, World!", exampleDate⟩
        { exampleConfig with ImageSavePath := str "static//images/" }).ImgSavePath
      = (if (str "static//images/").head? = some filepath.Separator then [filepath.Separator]
          else [])
        ++ [filepath.Separator].intercalate
          (filepath.cleanElems (str "static//images/") ++ [[] ++ str "Hello, World!"]) ∧
    (if (str "static//images/").head? = some filepath.Separator then [filepath.Separator]
          else [])
        ++ [filepath.Separator].intercalate
          (filepath.cleanElems (str "static//images/") ++ [[] ++ str "Hello, World!"])
      = str "static/images/Hello, World!" :=
  ⟨ImgSavePath_single_component ⟨str "1", str "Hello, World!", exampleDate⟩
    { exampleConfig with ImageSavePath := str "static//images/" }
    (by decide) (by decide) (by decide) (by decide), by decide⟩

theorem generate_events {σ ν β : Type} (w : World σ ν β) (toLowerCase : Nat → Nat)
    (page : Page) (blocks : β) (config : Markdown) (s : σ) :
    ∃ ops : List FileOp, (generate w toLowerCase page blocks config s).2.1
      = Event.create (generate.name toLowerCase page config)
        :: ops.map (Event.file (generate.name toLowerCase page config)) := by
  simp only [generate]
  cases hc : w.Create (generate.name toLowerCase page config) s with
  | mk e s1 =>
    cases e with
    | some err => exact ⟨[], rfl⟩
    | none =>
      exact ⟨(w.GenerateTo (generate.tm page config) blocks
        (generate.name toLowerCase page config) s1).1.1, rfl⟩

theorem batchOutcomes_length {σ ν β : Type} (w : World σ ν β) (toLowerCase : Nat → Nat)
    (config : Config ν) (client : GoString) (pages : List Page) :
    ∀ s : σ, (batchOutcomes w toLowerCase config client pages s).1.length = pages.length := by
  induction pages with
  | nil => intro s; rfl
  | cons page pages ih =>
    intro s
    simp only [batchOutcomes, List.length_cons, ih]

theorem fetchedPages_append (xs ys : List Event) :
    fetchedPages (xs ++ ys) = fetchedPages xs ++ fetchedPages ys := by
  induction xs with
  | nil => rfl
  | cons e xs ih =>
    cases e <;> simp [fetchedPages, ih]

theorem fetchedPages_file (name : GoString) (ops : List FileOp) :
    fetchedPages (ops.map (Event.file name)) = [] := by
  induction ops with
  | nil => rfl
  | cons op ops ih => simp [fetchedPages, ih]

theorem fetchedPages_pageEvents (toLowerCase : Nat → Nat) (config : Markdown) (total i : Nat)
    (page : Page) (outcome : PageOutcome) :
    fetchedPages (pageEvents toLowerCase config total i page outcome) = [page.ID] := by
  cases outcome <;>
    simp [pageEvents, fetchedPages, fetchedPages_append, fetchedPages_file]

theorem fetchedPages_batchEvents (toLowerCase : Nat → Nat) (config : Markdown) (total : Nat)
    (pages : List Page) :
    ∀ (i : Nat) (outcomes : List PageOutcome), outcomes.length = pages.length →
      fetchedPages (batchEvents toLowerCase config total i pages outcomes)
        = pages.map Page.ID := by
  induction pages with
  | nil => intro i outcomes _; cases outcomes <;> rfl
  | cons page pages ih =>
    intro i outcomes h
    cases outcomes with
    | nil => simp at h
    | cons o os =>
      simp only [List.length_cons, Nat.add_right_cancel_iff] at h
      simp only [batchEvents, fetchedPages_append, fetchedPages_pageEvents, ih (i + 1) os h,
        List.map_cons, List.singleton_append]

theorem generate_create_failed {σ ν β : Type} (w : World σ ν β) (toLowerCase : Nat → Nat)
    (page : Page) (blocks : β) (config : Markdown) (s s1 : σ) (err : Error)
    (hc : w.Create (generate.name toLowerCase page config) s = (some err, s1)) :
    generate w toLowerCase page blocks config s
      = (some (str "error create file: " ++ err),
          [Event.create (generate.name toLowerCase page config)], s1) := by
  unfold generate
  show (match w.Create (generate.name toLowerCase page config) s with
    | (some err, s1) => _
    | (none, s1) => _) = _
  rw [hc]

theorem generate_created {σ ν β : Type} (w : World σ ν β) (toLowerCase : Nat → Nat)
    (page : Page) (blocks : β) (config : Markdown) (s s1 s2 : σ) (ops : List FileOp)
    (err : Option Error)
    (hc : w.Create (generate.name toLowerCase page config) s = (none, s1))
    (hg : w.GenerateTo (generate.tm page config) blocks (generate.name toLowerCase page config)
      s1 = ((ops, err), s2)) :
    generate w toLowerCase page blocks config s
      = (err, Event.create (generate.name toLowerCase page config)
          :: ops.map (Event.file (generate.name toLowerCase page config)), s2) := by
  unfold generate
  show (match w.Create (generate.name toLowerCase page config) s with
    | (some err, s1) => _
    | (none, s1) => _) = _
  rw [hc]
  show ((w.GenerateTo (generate.tm page config) blocks
        (generate.name toLowerCase page config) s1).1.2,
      Event.create (generate.name toLowerCase page config)
        :: (w.GenerateTo (generate.tm page config) blocks
          (generate.name toLowerCase page config) s1).1.1.map
            (Event.file (generate.name toLowerCase page config)),
      (w.GenerateTo (generate.tm page config) blocks
        (generate.name toLowerCase page config) s1).2) = _
  rw [hg]

theorem loop_eq {σ ν β : Type} (w : World σ ν β) (toLowerCase : Nat → Nat)
    (config : Config ν) (client : GoString) (total : Nat) (pages : List Page) :
    ∀ (i changed : Nat) (s : σ),
      Run.loop w toLowerCase config client total pages i changed s
        = (changed + published (batchOutcomes w toLowerCase config client pages s).1,
            batchEvents toLowerCase config.Markdown total i pages
              (batchOutcomes w toLowerCase config client pages s).1,
            (batchOutcomes w toLowerCase config client pages s).2) := by
  induction pages with
  | nil => exact fun _ _ _ => rfl
  | cons page pages ih =>
    intro i changed s
    cases hf : w.queryBlockChildren client page.ID s with
    | mk r s1 =>
      cases r with
      | error err =>
        simp only [Run.loop, batchOutcomes, pageOutcome, hf, ih, published, batchEvents,
          pageEvents]
        simp
      | ok blocks =>
        cases hc : w.Create (generate.name toLowerCase page config.Markdown) s1 with
        | mk e s2 =>
          cases e with
          | some err =>
            simp only [Run.loop, batchOutcomes, pageOutcome, hf, hc, ih, published,
              batchEvents, pageEvents,
              generate_create_failed w toLowerCase page blocks config.Markdown s1 s2 err hc]
            simp
          | none =>
            cases hg : w.GenerateTo (generate.tm page config.Markdown) blocks
                (generate.name toLowerCase page config.Markdown) s2 with
            | mk r2 s3 =>
              obtain ⟨ops, e2⟩ := r2
              cases e2 with
              | some err =>
                simp only [Run.loop, batchOutcomes, pageOutcome, hf, hc, hg, ih, published,
                  batchEvents, pageEvents,
                  generate_created w toLowerCase page blocks config.Markdown s1 s2 s3 ops
                    (some err) hc hg]
                simp
              | none =>
                cases hs : w.changeStatus client page config.Notion s3 with
                | mk status s4 =>
                  cases status with
                  | true =>
                    simp only [Run.loop, batchOutcomes, pageOutcome, hf, hc, hg, hs, ih, published,
                      batchEvents, pageEvents, if_true,
                      generate_created w toLowerCase page blocks config.Markdown s1 s2 s3 ops
                        none hc hg]
                    simp [Nat.add_comm, Nat.add_left_comm]
                  | false =>
                    simp only [Run.loop, batchOutcomes, pageOutcome, hf, hc, hg, hs, ih,
                      published, batchEvents, pageEvents,
                      generate_created w toLowerCase page blocks config.Markdown s1 s2 s3 ops
                        none hc hg]
                    simp

/-- C7. When the content folder can be created and the database query succeeds
with the pages `q`, `Run` returns `nil`, whatever happens to the pages. The
outcome of each page is the one the answers of the collaborators decide
(`pageOutcome`: the fetch failed, `generate` failed, or both succeeded), each
page being taken up in the world its predecessor left whether that one failed or
not; there is one outcome for every page of `q`; and what `Run` does is, after
its three opening steps, for each page of `q` in order the steps of that page up
to the first one that fails, the remaining steps of that page skipped, then the
next page, and at the end the count of changed statuses when asked for. In
particular the blocks of every page of `q` are asked for, in the order of `q`. -/
theorem Run_never_aborts {σ ν β : Type} (w : World σ ν β) (toLowerCase : Nat → Nat)
    (config : Config ν) (s s1 s2 : σ) (q : List Page)
    (hmkdir : w.MkdirAll config.Markdown.PostSavePath s = (none, s1))
    (hquery : w.queryDatabase (w.Getenv (str "NOTION_SECRET") s1) config.Notion s1
      = (Except.ok q, s2)) :
    Run w toLowerCase config s
      = (none,
          [Event.mkdirAll config.Markdown.PostSavePath, Event.queryDatabase,
              Event.print (str "✔ Querying Notion database: Completed\n")]
            ++ batchEvents toLowerCase config.Markdown q.length 0 q
              (batchOutcomes w toLowerCase config (w.Getenv (str "NOTION_SECRET") s1) q s2).1
            ++ (if w.Getenv (str "GITHUB_ACTIONS")
                  (batchOutcomes w toLowerCase config (w.Getenv (str "NOTION_SECRET") s1) q
                    s2).2 = str "true" then
                [Event.print (str "::set-output name=articles_published::"
                  ++ decimal (published (batchOutcomes w toLowerCase config
                    (w.Getenv (str "NOTION_SECRET") s1) q s2).1) ++ str "\n")]
              else []),
          (batchOutcomes w toLowerCase config (w.Getenv (str "NOTION_SECRET") s1) q s2).2) ∧
    (batchOutcomes w toLowerCase config (w.Getenv (str "NOTION_SECRET") s1) q s2).1.length
      = q.length ∧
    fetchedPages (Run w toLowerCase config s).2.1 = q.map Page.ID := by
  have hrun : Run w toLowerCase config s
      = (none,
          [Event.mkdirAll config.Markdown.PostSavePath, Event.queryDatabase,
              Event.print (str "✔ Querying Notion database: Completed\n")]
            ++ batchEvents toLowerCase config.Markdown q.length 0 q
              (batchOutcomes w toLowerCase config (w.Getenv (str "NOTION_SECRET") s1) q s2).1
            ++ (if w.Getenv (str "GITHUB_ACTIONS")
                  (batchOutcomes w toLowerCase config (w.Getenv (str "NOTION_SECRET") s1) q
                    s2).2 = str "true" then
                [Event.print (str "::set-output name=articles_published::"
                  ++ decimal (published (batchOutcomes w toLowerCase config
                    (w.Getenv (str "NOTION_SECRET") s1) q s2).1) ++ str "\n")]
              else []),
          (batchOutcomes w toLowerCase config (w.Getenv (str "NOTION_SECRET") s1) q s2).2) := by
    simp only [Run, hmkdir, hquery, loop_eq, Nat.zero_add]
  have hlen := batchOutcomes_length w toLowerCase config (w.Getenv (str "NOTION_SECRET") s1) q s2
  refine ⟨hrun, hlen, ?_⟩
  rw [hrun]
  simp only [fetchedPages_append, fetchedPages_batchEvents _ _ _ _ _ _ hlen]
  split_ifs <;> simp [fetchedPages]

set_option maxRecDepth 20000 in
theorem Run_never_aborts_witness :
    (batchOutcomes (exampleWorld false) caseRangesExcerpt ⟨exampleConfig, ()⟩ []
        [⟨str "1", str "Hello, World!", exampleDate⟩, ⟨str "2", str "Second", exampleDate⟩,
          ⟨str "3", str "Broken", exampleDate⟩] ()).1
      = [PageOutcome.generated [FileOp.write (str "title")] true,
          PageOutcome.fetchFailed (str "timeout"),
          PageOutcome.generateFailed [] (str "error create file: permission denied")] ∧
    Run (exampleWorld false) caseRangesExcerpt ⟨exampleConfig, ()⟩ ()
      = (none,
          [Event.mkdirAll (str "content"), Event.queryDatabase,
            Event.print (str "✔ Querying Notion database: Completed\n"),
            Event.print (str "-- Article [1/3] Hello, World! --\n"),
            Event.queryBlockChildren (str "1"),
            Event.print (str "✔ Getting blocks tree: Completed\n"),
            Event.create (str "content/hello-world-.md"),
            Event.file (str "content/hello-world-.md") (FileOp.write (str "title")),
            Event.print (str "✔ Generating blog post: Completed\n"),
            Event.changeStatus (str "1"),
            Event.print (str "-- Article [2/3] Second --\n"),
            Event.queryBlockChildren (str "2"),
            Event.log (str "❌ Getting blocks tree: timeout\n"),
            Event.print (str "-- Article [3/3] Broken --\n"),
            Event.queryBlockChildren (str "3"),
            Event.print (str "✔ Getting blocks tree: Completed\n"),
            Event.create (str "content/broken.md"),
            Event.print (str "❌ Generating blog post: error create file: permission denied\n")],
          ()) ∧
    fetchedPages (Run (exampleWorld false) caseRangesExcerpt ⟨exampleConfig, ()⟩ ()).2.1
      = [str "1", str "2", str "3"] :=
  ⟨by decide,
    (Run_never_aborts (exampleWorld false) caseRangesExcerpt ⟨exampleConfig, ()⟩ () () ()
      [⟨str "1", str "Hello, World!", exampleDate⟩, ⟨str "2", str "Second", exampleDate⟩,
        ⟨str "3", str "Broken", exampleDate⟩] rfl rfl).1,
    (Run_never_aborts (exampleWorld false) caseRangesExcerpt ⟨exampleConfig, ()⟩ () () ()
      [⟨str "1", str "Hello, World!", exampleDate⟩, ⟨str "2", str "Second", exampleDate⟩,
        ⟨str "3", str "Broken", exampleDate⟩] rfl rfl).2.2⟩

/-- C8 as stated fails. In the example world `os.Create` succeeds for the page
`Hello, World!` and `GenerateTo` writes to the file without closing it: when
`generate` returns, with `nil` or with the error of `GenerateTo`, the file has
been created and written, and never closed. -/
theorem generate_leaves_file_open :
    (generate (exampleWorld false) caseRangesExcerpt
        ⟨str "1", str "Hello, World!", exampleDate⟩ () exampleConfig ())
      = (none, [Event.create (str "content/hello-world-.md"),
          Event.file (str "content/hello-world-.md") (FileOp.write (str "title"))], ()) ∧
    (generate (exampleWorld true) caseRangesExcerpt
        ⟨str "1", str "Hello, World!", exampleDate⟩ () exampleConfig ())
      = (some (str "short write"), [Event.create (str "content/hello-world-.md"),
          Event.file (str "content/hello-world-.md") (FileOp.write (str "title"))], ()) ∧
    Event.file (str "content/hello-world-.md") FileOp.close ∉
      (generate (exampleWorld false) caseRangesExcerpt
        ⟨str "1", str "Hello, World!", exampleDate⟩ () exampleConfig ()).2.1 ∧
    Event.file (str "content/hello-world-.md") FileOp.close ∉
      (generate (exampleWorld true) caseRangesExcerpt
        ⟨str "1", str "Hello, World!", exampleDate⟩ () exampleConfig ()).2.1 := by
  decide

/-- C8, amended. When `os.Create` succeeds, `generate` returns the result of
`tm.GenerateTo`, and its file operations are the creation followed by exactly
the operations that `GenerateTo` performs on the file: `generate` itself never
closes the file, on no path. The file is closed when `generate` returns if and
only if `GenerateTo` closed it. -/
theorem generate_file_operations {σ ν β : Type} (w : World σ ν β) (toLowerCase : Nat → Nat)
    (page : Page) (blocks : β) (config : Markdown) (s : σ)
    (hcreate : (w.Create (generate.name toLowerCase page config) s).1 = none) :
    (generate w toLowerCase page blocks config s).1
      = (w.GenerateTo (generate.tm page config) blocks (generate.name toLowerCase page config)
          (w.Create (generate.name toLowerCase page config) s).2).1.2 ∧
    (generate w toLowerCase page blocks config s).2.1
      = Event.create (generate.name toLowerCase page config) ::
        (w.GenerateTo (generate.tm page config) blocks (generate.name toLowerCase page config)
          (w.Create (generate.name toLowerCase page config) s).2).1.1.map
            (Event.file (generate.name toLowerCase page config)) ∧
    (Event.file (generate.name toLowerCase page config) FileOp.close
        ∈ (generate w toLowerCase page blocks config s).2.1 ↔
      FileOp.close ∈ (w.GenerateTo (generate.tm page config) blocks
        (generate.name toLowerCase page config)
        (w.Create (generate.name toLowerCase page config) s).2).1.1) := by
  simp only [generate]
  cases hc : w.Create (generate.name toLowerCase page config) s with
  | mk e s1 =>
    rw [hc] at hcreate
    simp only at hcreate
    subst hcreate
    simp

theorem generate_file_operations_witness :
    ((exampleWorld true).Create (generate.name caseRangesExcerpt
      ⟨str "1", str "Hello, World!", exampleDate⟩ exampleConfig) ()).1 = none ∧
    (generate (exampleWorld true) caseRangesExcerpt
        ⟨str "1", str "Hello, World!", exampleDate⟩ () exampleConfig ()).1
      = some (str "short write") :=
  ⟨by decide, (generate_file_operations (exampleWorld true) caseRangesExcerpt
    ⟨str "1", str "Hello, World!", exampleDate⟩ () exampleConfig () (by decide)).1⟩

/-- C10. `generate` slugifies `PageNamePrefix ++ title` as one string: the file
it creates is named after `generateArticleFilename` of that string. And a
non-empty leading part `p` over `[a-z0-9_.-]` that does not start with a hyphen
and has no two hyphens side by side survives: the file name of `p ++ t`, with
`GroupByMonth` disabled, starts with `p`, for every `t`. -/
theorem pageNamePrefix_kept {σ ν β : Type} (w : World σ ν β) (toLowerCase : Nat → Nat)
    (page : Page) (blocks : β) (cfg : Markdown) (s : σ) (p t : GoString) (date : Time)
    (config : Markdown) (hne : p ≠ []) (hp : ∀ c ∈ p, slugChar c = true)
    (hh : p.head? ≠ some 0x2D) (hc : noHyphenPair p) :
    (generate w toLowerCase page blocks cfg s).2.1.head?
      = some (Event.create (filepath.Join [cfg.PostSavePath,
          generateArticleFilename toLowerCase (cfg.PageNamePrefix ++ page.Name)
            page.CreatedTime cfg])) ∧
    ∃ rest, generateArticleFilename toLowerCase (p ++ t) date
      { config with GroupByMonth := false } = p ++ rest := by
  constructor
  · obtain ⟨ops, h⟩ := generate_events w toLowerCase page blocks cfg s
    rw [h]
    rfl
  · obtain ⟨q, hq⟩ := escapedTitle_keeps toLowerCase p t hne hp hh hc
    exact ⟨q ++ str ".md", by rw [filename_ungrouped, hq, List.append_assoc]⟩

theorem pageNamePrefix_kept_witness :
    (generate (exampleWorld false) caseRangesExcerpt ⟨str "1", str "Hello", exampleDate⟩ ()
        { exampleConfig with PageNamePrefix := str "blog-" } ()).2.1.head?
      = some (Event.create (filepath.Join [str "content",
          generateArticleFilename caseRangesExcerpt (str "blog-" ++ str "Hello")
            exampleDate { exampleConfig with PageNamePrefix := str "blog-" }])) ∧
    ∃ rest, generateArticleFilename caseRangesExcerpt (str "blog-" ++ str "-Hello") exampleDate
      { exampleConfig with GroupByMonth := false } = str "blog-" ++ rest :=
  pageNamePrefix_kept (exampleWorld false) caseRangesExcerpt ⟨str "1", str "Hello", exampleDate⟩
    () { exampleConfig with PageNamePrefix := str "blog-" } () (str "blog-") (str "-Hello")
    exampleDate exampleConfig (by decide) (by decide) (by decide)
    (by rw [show str "blog-" = [0x62, 0x6C, 0x6F, 0x67, 0x2D] from by decide]
        simp [noHyphenPair])

end NotionMdGen
